import Mathlib

/-!
Verification of the day-12 region-packing solver
(`src/day_12_christmas_tree_farm/new_part_1.py` and
`src/day_12_christmas_tree_farm/trace_solver.py`).

The Python code is embedded shallowly: shapes are lists of integer cell
pairs, placement bitmasks are `Nat` with the bit at `(r+dr)*w + (c+dc)`
set per covered cell, and the iterative `while 0 <= pos < n` backtracking
loop of `solve_region` becomes an explicit step function driven by fuel,
together with a proved termination measure showing the fuel supplied by
`solve_region` is always sufficient.
-/

open List

namespace Day12

/-- A cell of a shape: a `(row, column)` pair of integers, exactly the
tuples `parse_input` appends and `find_unique_orientations` transforms. -/
abbrev Cell := Int × Int

/-- Lexicographic comparison of cells, matching Python tuple ordering,
used to model `sorted(...)` over a frozenset of cells. -/
def cellLe (a b : Cell) : Prop := a.1 < b.1 ∨ (a.1 = b.1 ∧ a.2 ≤ b.2)

instance : DecidableRel cellLe := fun a b => by
  unfold cellLe; exact inferInstance

instance : IsTotal Cell cellLe := by
  constructor; intro a b; unfold cellLe; omega

instance : IsTrans Cell cellLe := by
  constructor; intro a b c; unfold cellLe; omega

instance : IsAntisymm Cell cellLe := by
  constructor
  intro a b ha hb
  unfold cellLe at ha hb
  have h1 : a.1 = b.1 := by omega
  have h2 : a.2 = b.2 := by omega
  exact Prod.ext h1 h2

/-- Canonical form of Python's `sorted(frozenset(cells))`: the distinct
cells of the list in ascending order. -/
def canonCells (cells : List Cell) : List Cell := insertionSort cellLe cells.dedup

/-- Iterated quarter rotation `(r, c) -> (c, -r)` from the
`for _ in range(rot)` loop of `find_unique_orientations`. -/
def rotCell : Nat → Cell → Cell
  | 0, p => p
  | k + 1, p => rotCell k (p.2, -p.1)

/-- One transformed cell of `find_unique_orientations`: mirror the column
when `flip` is set, then apply `rot` quarter rotations. -/
def transformCell (flip : Bool) (rot : Nat) (p : Cell) : Cell :=
  rotCell rot (p.1, if flip then -p.2 else p.2)

/-- Minimum over the row coordinates of a cell list (Python `min`; the
empty-list default 0 is never reached on the solver's inputs). -/
def minFst : List Cell → Int
  | [] => 0
  | p :: rest => rest.foldl (fun a q => min a q.1) p.1

/-- Minimum over the column coordinates of a cell list. -/
def minSnd : List Cell → Int
  | [] => 0
  | p :: rest => rest.foldl (fun a q => min a q.2) p.2

/-- Maximum over the row coordinates of a cell list (Python `max`). -/
def maxFst : List Cell → Int
  | [] => 0
  | p :: rest => rest.foldl (fun a q => max a q.1) p.1

/-- Maximum over the column coordinates of a cell list. -/
def maxSnd : List Cell → Int
  | [] => 0
  | p :: rest => rest.foldl (fun a q => max a q.2) p.2

/-- Normalization step of `find_unique_orientations`: subtract the minimum
row and the minimum column from every cell. -/
def normalizeCells (cells : List Cell) : List Cell :=
  cells.map fun p => (p.1 - minFst cells, p.2 - minSnd cells)

/-- One normalized orientation of a shape for a fixed flip/rotation pair,
as the canonical sorted duplicate-free cell list. -/
def orientationOf (shape : List Cell) (flip : Bool) (rot : Nat) : List Cell :=
  canonCells (normalizeCells (shape.map (transformCell flip rot)))

/-- The eight flip/rotation combinations in the Python loop order
`for flip in (False, True): for rot in range(4)`. -/
def flipRots : List (Bool × Nat) :=
  [(false, 0), (false, 1), (false, 2), (false, 3),
   (true, 0), (true, 1), (true, 2), (true, 3)]

/-- Embedding of `find_unique_orientations`. The Python `set` of frozensets
is modelled as a duplicate-free list of canonical cell lists in first
insertion order; every verified claim is insensitive to the output order,
which CPython leaves unspecified for set iteration. -/
def find_unique_orientations (shape : List Cell) : List (List Cell) :=
  flipRots.foldl
    (fun acc fr =>
      let o := orientationOf shape fr.1 fr.2
      if o ∈ acc then acc else acc ++ [o])
    []

/-- One step of the orientation-set fold, named for the proofs below;
`find_unique_orientations` is definitionally the fold of this step. -/
def fuoStep (shape : List Cell) (acc : List (List Cell)) (fr : Bool × Nat) :
    List (List Cell) :=
  let o := orientationOf shape fr.1 fr.2
  if o ∈ acc then acc else acc ++ [o]

/-- Bitmask of one placement (`new_part_1.py` lines 118-120): bit
`(r+dr)*w + (c+dc)` is set for every cell `(r, c)` of the orientation. -/
def maskOfCells (w : Nat) (dr dc : Nat) (orient : List Cell) : Nat :=
  orient.foldl
    (fun mask p => mask ||| (1 <<< ((p.1 + (dr : Int)) * (w : Int) + (p.2 + (dc : Int))).toNat))
    0

/-- Placements of a single orientation (`new_part_1.py` lines 112-121):
every offset keeping the bounding box inside the region, in row-major
offset order; an oversized orientation contributes no placements. -/
def orientPlacements (w h : Nat) (orient : List Cell) : List Nat :=
  if (h : Int) ≤ maxFst orient ∨ (w : Int) ≤ maxSnd orient then []
  else
    (List.range ((h : Int) - maxFst orient).toNat).flatMap fun dr =>
      (List.range ((w : Int) - maxSnd orient).toNat).map fun dc =>
        maskOfCells w dr dc orient

/-- All placements of one shape type: the concatenation over its
orientations (`new_part_1.py` lines 110-121). -/
def genMasks (w h : Nat) (orients : List (List Cell)) : List Nat :=
  orients.flatMap (orientPlacements w h)

/-- Context shared by every iteration of the backtracking loop of
`solve_region`: the per-instance placement lists, the group boundary
table, and the group index of each instance. The group index models
Python's `inst_masks[pos + 1] is masks` object-identity test, which holds
exactly for instances created from the same `type_masks` entry. -/
structure Ctx where
  instMasks : List (List Nat)
  groupBounds : List (Nat × Nat)
  instGid : List Nat

/-- Number of instances, `n = len(inst_masks)`. -/
def Ctx.n (ctx : Ctx) : Nat := ctx.instMasks.length

/-- The short-circuited free-placement counter of the forward check
(`new_part_1.py` lines 170-175): starting from `c`, count masks disjoint
from `grid`, stopping as soon as the count reaches `needed`. -/
def countFree (needed grid : Nat) : List Nat → Nat → Nat
  | [], c => c
  | m :: rest, c =>
    if grid &&& m = 0 then
      if needed ≤ c + 1 then c + 1 else countFree needed grid rest (c + 1)
    else countFree needed grid rest c

/-- Forward check (`new_part_1.py` lines 160-178): every group that still
has unplaced instances after `pos` must have at least that many free
placements under `newGrid`. -/
def forwardOk (ctx : Ctx) (pos newGrid : Nat) : Bool :=
  ctx.groupBounds.all fun gb =>
    if gb.2 ≤ pos + 1 then true
    else
      let needed := gb.2 - max (pos + 1) gb.1
      if needed = 0 then true
      else decide (needed ≤ countFree needed newGrid (ctx.instMasks.getD gb.1 []) 0)

/-- The inner placement scan (`new_part_1.py` lines 154-193): the first
index at or after `start` whose mask is disjoint from `grid` and passes
the forward check, or `none` when the list is exhausted. -/
def findCommit (ctx : Ctx) (masks : List Nat) (grid pos : Nat) : Nat → Option Nat :=
  fun start =>
    if h : start < masks.length then
      let m := masks.getD start 0
      if decide (grid &&& m = 0) && forwardOk ctx pos (grid ||| m) then some start
      else findCommit ctx masks grid pos (start + 1)
    else none
termination_by start => masks.length - start
decreasing_by omega

/-- Python's `same_next = pos + 1 < n and inst_masks[pos + 1] is masks`
(`new_part_1.py` line 188), with list object identity expressed as group
index equality. -/
def sameNextAt (ctx : Ctx) (pos : Nat) : Bool :=
  decide (pos + 1 < ctx.n) && decide (ctx.instGid.getD (pos + 1) 0 = ctx.instGid.getD pos 0)

/-- State of the iterative backtracking loop: resume indices `mi`, saved
grids, current occupancy bitmask, and the (possibly negative) position. -/
structure SRState where
  mi : List Nat
  grids : List Nat
  grid : Nat
  pos : Int

/-- One iteration of the `while 0 <= pos < n` loop body
(`new_part_1.py` lines 149-198), for a state with `0 ≤ pos < n`. -/
def stepLoop (ctx : Ctx) (σ : SRState) : SRState :=
  let pos := σ.pos.toNat
  let masks := ctx.instMasks.getD pos []
  match findCommit ctx masks σ.grid pos (σ.mi.getD pos 0) with
  | some i =>
    let m := masks.getD i 0
    { mi := (σ.mi.set pos (i + 1)).set (pos + 1)
        (if sameNextAt ctx pos then i + 1 else 0)
      grids := σ.grids.set pos σ.grid
      grid := σ.grid ||| m
      pos := σ.pos + 1 }
  | none =>
    { σ with
      pos := σ.pos - 1
      grid := if 0 ≤ σ.pos - 1 then σ.grids.getD (σ.pos - 1).toNat 0 else σ.grid }

/-- The backtracking loop with explicit fuel; `none` means the fuel ran
out, and `solve_region` always supplies enough fuel (see the measure
lemmas below), so the final `pos >= n` result is always produced. -/
def runLoop (ctx : Ctx) : Nat → SRState → Option Bool
  | fuel, σ =>
    if 0 ≤ σ.pos ∧ σ.pos < (ctx.n : Int) then
      match fuel with
      | 0 => none
      | fuel + 1 => runLoop ctx fuel (stepLoop ctx σ)
    else some (decide ((ctx.n : Int) ≤ σ.pos))

/-- Positional weight of a list of placement-list lengths: the product of
the lengths, each bumped by one. -/
def weight : List Nat → Nat
  | [] => 1
  | l :: ls => (l + 1) * weight ls

/-- Lexicographic value of the resume-index vector against the length
vector; it strictly drops at every commit. -/
def lexVal : List Nat → List Nat → Nat
  | [], _ => 0
  | l :: ls, ms => (l - ms.headD 0) * weight ls + lexVal ls ms.tail

/-- The placement-list lengths of all instances. -/
def lenList (ctx : Ctx) : List Nat := ctx.instMasks.map List.length

/-- Termination measure of the loop: the lexicographic resume-index value
dominates, with the position as tie breaker. -/
def measureOf (ctx : Ctx) (σ : SRState) : Nat :=
  (ctx.n + 2) * lexVal (lenList ctx) σ.mi + (σ.pos + 1).toNat

/-- Embedding of `total_cells` (`new_part_1.py` line 99). -/
def totalCellsOf (counts : List Nat) (shapes : List (List Cell)) : Nat :=
  ((List.range shapes.length).map fun s =>
    counts.getD s 0 * (shapes.getD s []).length).sum

/-- Embedding of `active` (`new_part_1.py` line 103). -/
def activeOf (counts : List Nat) : List (Nat × Nat) :=
  (List.range counts.length).filterMap fun s =>
    if 0 < counts.getD s 0 then some (s, counts.getD s 0) else none

/-- The `type_masks` construction loop (`new_part_1.py` lines 108-124);
`none` is the early `return False` when a shape type has fewer placements
than required copies. -/
def buildTypeMasks (w h : Nat) (ao : List (List (List Cell))) :
    List (Nat × Nat) → Option (List (Nat × Nat × List Nat))
  | [] => some []
  | (s, cnt) :: rest =>
    let masks := genMasks w h (ao.getD s [])
    if masks.length < cnt then none
    else (buildTypeMasks w h ao rest).map ((s, cnt, masks) :: ·)

/-- Sort key of `type_masks.sort(key=lambda x: len(x[2]))`. -/
def lenLe (a b : Nat × Nat × List Nat) : Prop := a.2.2.length ≤ b.2.2.length

instance : DecidableRel lenLe := fun a b => by
  unfold lenLe; exact inferInstance

/-- Flat instance list: each type contributes `cnt` references to its
shared placement list (`new_part_1.py` lines 131-139). -/
def instMasksOf (tms : List (Nat × Nat × List Nat)) : List (List Nat) :=
  tms.flatMap fun t => List.replicate t.2.1 t.2.2

/-- Group boundary table `(idx, idx + cnt)` per type
(`new_part_1.py` lines 133-139). -/
def groupBoundsAux : List (Nat × Nat × List Nat) → Nat → List (Nat × Nat)
  | [], _ => []
  | t :: rest, idx => (idx, idx + t.2.1) :: groupBoundsAux rest (idx + t.2.1)

/-- Group index of every instance, modelling which `type_masks` entry the
instance's placement list object came from. -/
def instGidAux : List (Nat × Nat × List Nat) → Nat → List Nat
  | [], _ => []
  | t :: rest, g => List.replicate t.2.1 g ++ instGidAux rest (g + 1)

/-- The loop context built from the sorted `type_masks`. -/
def ctxOf (tms : List (Nat × Nat × List Nat)) : Ctx :=
  ⟨instMasksOf tms, groupBoundsAux tms 0, instGidAux tms 0⟩

/-- Initial loop state: `mi = [0]*(n+1)`, `grids = [0]*n`, `grid = 0`,
`pos = 0` (`new_part_1.py` lines 144-147). -/
def initState (n : Nat) : SRState :=
  ⟨List.replicate (n + 1) 0, List.replicate n 0, 0, 0⟩

/-- Embedding of `solve_region` (`new_part_1.py` lines 85-200). The fuel
handed to the loop exceeds the termination measure of the initial state,
which the measure lemmas prove sufficient, so `getD false` never fires. -/
def solve_region (w h : Nat) (counts : List Nat)
    (ao : List (List (List Cell))) (shapes : List (List Cell)) : Bool :=
  if w * h < totalCellsOf counts shapes then false
  else
    let active := activeOf counts
    if active = [] then true
    else
      match buildTypeMasks w h ao active with
      | none => false
      | some tms0 =>
        let ctx := ctxOf (insertionSort lenLe tms0)
        (runLoop ctx (measureOf ctx (initState ctx.n) + 1) (initState ctx.n)).getD false

/-- Events recorded by the traced solver (`trace_solver.py` lines 106-124):
a commit with the instance position, shape type and absolute cells, or a
backtrack with the instance position. -/
inductive TraceEvent where
  | commit (p s : Nat) (cells : List Cell)
  | back (p : Nat)
deriving DecidableEq

/-- Event cap `MAX_EVENTS` of `trace_solver.py`. -/
def maxEvents : Nat := 50000

/-- Placements of one orientation together with their absolute cell lists
(`trace_solver.py` lines 27-40). -/
def orientPlacementsCells (w h : Nat) (orient : List Cell) : List (Nat × List Cell) :=
  if (h : Int) ≤ maxFst orient ∨ (w : Int) ≤ maxSnd orient then []
  else
    (List.range ((h : Int) - maxFst orient).toNat).flatMap fun dr =>
      (List.range ((w : Int) - maxSnd orient).toNat).map fun dc =>
        (maskOfCells w dr dc orient, orient.map fun p => (p.1 + (dr : Int), p.2 + (dc : Int)))

/-- All placements with cells for one shape type (`trace_solver.py`
lines 26-40); the two parallel Python lists are zipped into pairs. -/
def genMasksCells (w h : Nat) (orients : List (List Cell)) : List (Nat × List Cell) :=
  orients.flatMap (orientPlacementsCells w h)

/-- The `type_data` construction loop (`trace_solver.py` lines 24-43). -/
def buildTypeData (w h : Nat) (ao : List (List (List Cell))) :
    List (Nat × Nat) → Option (List (Nat × Nat × List (Nat × List Cell)))
  | [] => some []
  | (s, cnt) :: rest =>
    let pairs := genMasksCells w h (ao.getD s [])
    if pairs.length < cnt then none
    else (buildTypeData w h ao rest).map ((s, cnt, pairs) :: ·)

/-- Sort key of `type_data.sort(key=lambda x: len(x[2]))`. -/
def lenLeT (a b : Nat × Nat × List (Nat × List Cell)) : Prop :=
  a.2.2.length ≤ b.2.2.length

instance : DecidableRel lenLeT := fun a b => by
  unfold lenLeT; exact inferInstance

/-- Projection dropping the per-placement cell lists, sending a
`type_data` entry to the corresponding `type_masks` entry. -/
def projTD (t : Nat × Nat × List (Nat × List Cell)) : Nat × Nat × List Nat :=
  (t.1, t.2.1, t.2.2.map Prod.fst)

/-- Extra per-instance tables of the traced solver: absolute cell lists
per placement, and the shape type of each instance. -/
structure TCtx where
  base : Ctx
  instCells : List (List (List Cell))
  instType : List Nat

/-- The traced context built from the sorted `type_data`
(`trace_solver.py` lines 47-58). -/
def tctxOf (tds : List (Nat × Nat × List (Nat × List Cell))) : TCtx where
  base := ctxOf (tds.map projTD)
  instCells := tds.flatMap fun t => List.replicate t.2.1 (t.2.2.map Prod.snd)
  instType := tds.flatMap fun t => List.replicate t.2.1 t.1

/-- State of the traced loop: the solver state plus the recorded events
and the cap flag (`trace_solver.py` lines 61-65). -/
structure TrState where
  mi : List Nat
  grids : List Nat
  grid : Nat
  pos : Int
  events : List TraceEvent
  capped : Bool

/-- Forget the tracing side channel of a traced state. -/
def projState (σ : TrState) : SRState := ⟨σ.mi, σ.grids, σ.grid, σ.pos⟩

/-- Event recording with the cap (`trace_solver.py` lines 105-113 and
121-124): append only while uncapped, and set the cap once the event
count reaches `maxEvents`. -/
def pushEvent (ev : TraceEvent) (events : List TraceEvent) (capped : Bool) :
    List TraceEvent × Bool :=
  if capped then (events, capped)
  else
    let events := events ++ [ev]
    (events, decide (maxEvents ≤ events.length))

/-- One iteration of the traced loop body (`trace_solver.py`
lines 67-127). -/
def stepLoopT (tc : TCtx) (σ : TrState) : TrState :=
  let ctx := tc.base
  let pos := σ.pos.toNat
  let masks := ctx.instMasks.getD pos []
  match findCommit ctx masks σ.grid pos (σ.mi.getD pos 0) with
  | some i =>
    let m := masks.getD i 0
    let ec := pushEvent
      (.commit pos (tc.instType.getD pos 0) ((tc.instCells.getD pos []).getD i []))
      σ.events σ.capped
    { mi := (σ.mi.set pos (i + 1)).set (pos + 1)
        (if sameNextAt ctx pos then i + 1 else 0)
      grids := σ.grids.set pos σ.grid
      grid := σ.grid ||| m
      pos := σ.pos + 1
      events := ec.1
      capped := ec.2 }
  | none =>
    let ec := pushEvent (.back pos) σ.events σ.capped
    { σ with
      pos := σ.pos - 1
      grid := if 0 ≤ σ.pos - 1 then σ.grids.getD (σ.pos - 1).toNat 0 else σ.grid
      events := ec.1
      capped := ec.2 }

/-- The traced loop with fuel, returning the result and the event list. -/
def runLoopT (tc : TCtx) : Nat → TrState → Option (Bool × List TraceEvent)
  | fuel, σ =>
    if 0 ≤ σ.pos ∧ σ.pos < (tc.base.n : Int) then
      match fuel with
      | 0 => none
      | fuel + 1 => runLoopT tc fuel (stepLoopT tc σ)
    else some (decide ((tc.base.n : Int) ≤ σ.pos), σ.events)

/-- Initial traced state (`trace_solver.py` lines 61-65). -/
def initStateT (n : Nat) : TrState :=
  ⟨List.replicate (n + 1) 0, List.replicate n 0, 0, 0, [], false⟩

/-- Embedding of `solve_region_traced` (`trace_solver.py` lines 14-129). -/
def solve_region_traced (w h : Nat) (counts : List Nat)
    (ao : List (List (List Cell))) (shapes : List (List Cell)) :
    Bool × List TraceEvent :=
  if w * h < totalCellsOf counts shapes then (false, [])
  else
    let active := activeOf counts
    if active = [] then (true, [])
    else
      match buildTypeData w h ao active with
      | none => (false, [])
      | some tds0 =>
        let tc := tctxOf (insertionSort lenLeT tds0)
        (runLoopT tc (measureOf tc.base (initState tc.base.n) + 1)
          (initStateT tc.base.n)).getD (false, [])

/-- Naive brute-force search from the spec's cross-check property: try
every placement for every instance in order and keep only non-overlapping
combinations, with no ordering heuristic, forward checking, or symmetry
breaking. -/
def brute (grid : Nat) : List (List Nat) → Bool
  | [] => true
  | ms :: rest => ms.any fun m => decide (grid &&& m = 0) && brute (grid ||| m) rest

/-- Brute-force reference solver of claim C1, modelled from the spec: one
generated placement bitmask is assigned to each required shape instance,
and the search succeeds exactly when some assignment is pairwise
disjoint. -/
def bruteForceSolve (w h : Nat) (counts : List Nat)
    (ao : List (List (List Cell))) : Bool :=
  brute 0 ((activeOf counts).flatMap fun sc =>
    List.replicate sc.2 (genMasks w h (ao.getD sc.1 [])))

/-- Recursive form of the backtracking search: at position `k`, scan
placement indices from `s` under occupancy `g`, with the same forward
check and the same symmetry-breaking start index as the iterative loop. -/
def dfsFrom (ctx : Ctx) (k s g : Nat) : Bool :=
  if hk : k < ctx.n then
    if hs : s < (ctx.instMasks.getD k []).length then
      if decide (g &&& (ctx.instMasks.getD k []).getD s 0 = 0) &&
          forwardOk ctx k (g ||| (ctx.instMasks.getD k []).getD s 0) then
        (dfsFrom ctx (k + 1) (if sameNextAt ctx k then s + 1 else 0)
            (g ||| (ctx.instMasks.getD k []).getD s 0)
          || dfsFrom ctx k (s + 1) g)
      else dfsFrom ctx k (s + 1) g
    else false
  else true
termination_by (ctx.n - k, (ctx.instMasks.getD k []).length - s)
decreasing_by
  all_goals simp_wf
  · exact Prod.Lex.left _ _ (by omega)
  · exact Prod.Lex.right _ (by
      simp only [List.getD_eq_getElem?_getD] at hs
      omega)
  · exact Prod.Lex.right _ (by
      simp only [List.getD_eq_getElem?_getD] at hs
      omega)

/-- The group list underlying a `type_masks` table: required count and
shared placement list per type. -/
def groupsOf (tms : List (Nat × Nat × List Nat)) : List (Nat × List Nat) :=
  tms.map fun t => (t.2.1, t.2.2)

/-- Structural restatement of the forward check for a state with `jrem`
instances of the current group still unplaced (beyond the tentative
commit) and the groups of `rest` entirely unplaced. -/
def fOkG (newg jrem : Nat) (masks : List Nat) (rest : List (Nat × List Nat)) : Bool :=
  (decide (jrem = 0) || decide (jrem ≤ countFree jrem newg masks 0)) &&
    rest.all fun q => decide (q.1 ≤ countFree q.1 newg q.2 0)

/-- Group-structured form of the recursive search: `j` instances of the
current group remain, scanning its placement list from `s`, with the
groups of `rest` still untouched. -/
def dfsG (g s j : Nat) (masks : List Nat) (rest : List (Nat × List Nat)) : Bool :=
  match j with
  | 0 =>
    match rest with
    | [] => true
    | q :: rest1 => dfsG g 0 q.1 q.2 rest1
  | j + 1 =>
    if hs : s < masks.length then
      if decide (g &&& masks.getD s 0 = 0) && fOkG (g ||| masks.getD s 0) j masks rest then
        (dfsG (g ||| masks.getD s 0) (s + 1) j masks rest
          || dfsG g (s + 1) (j + 1) masks rest)
      else dfsG g (s + 1) (j + 1) masks rest
    else false
termination_by (rest.length, j, masks.length - s)

/-- Disjointness of two bitmasks. -/
def disjZ (a b : Nat) : Prop := a &&& b = 0

/-- A list of masks extends occupancy `g`: each is disjoint from `g` and
they are pairwise disjoint. -/
def OKext (g : Nat) (l : List Nat) : Prop :=
  (∀ m ∈ l, g &&& m = 0) ∧ l.Pairwise disjZ

/-- Per-group selections: for each group, a selection of the required
number of placements taken in list order (a sublist). -/
def GroupPick (groups : List (Nat × List Nat)) (ps : List (List Nat)) : Prop :=
  List.Forall₂ (fun p q => p.length = q.1 ∧ p <+ q.2) ps groups

/-- Semantic meaning of `dfsG g s j masks rest`: some in-order selection
of `j` placements from `masks.drop s` plus full selections for `rest`
extends `g` disjointly. -/
def SpecTail (g s j : Nat) (masks : List Nat) (rest : List (Nat × List Nat)) : Prop :=
  ∃ p ps, p.length = j ∧ p <+ masks.drop s ∧ GroupPick rest ps ∧
    OKext g (p ++ ps.flatten)

/-- Per-group selections with repetition allowed: for each group, the
required number of placements, each drawn from the group's list. -/
def SpecMem (g : Nat) (groups : List (Nat × List Nat)) : Prop :=
  ∃ ps, List.Forall₂ (fun p q => p.length = q.1 ∧ ∀ m ∈ p, m ∈ q.2) ps groups ∧
    OKext g ps.flatten

/-- Flat assignment semantics matching `brute`: one placement per
instance list, pairwise disjoint and disjoint from `g`. -/
def SpecFlat (g : Nat) (ls : List (List Nat)) : Prop :=
  ∃ chosen, List.Forall₂ (fun m ms => m ∈ ms) chosen ls ∧ OKext g chosen

/-- Set bits of a mask below the region size bound `B`. -/
def bitsOf (B m : Nat) : Finset Nat :=
  (Finset.range B).filter fun b => m.testBit b

/-- Meaning of an in-flight loop state: the scan pending at the current
position, or else the scan resumed at one of the saved positions below
it; outside the loop range, the final `pos >= n` result. -/
def loopSem (ctx : Ctx) (σ : SRState) : Bool :=
  if 0 ≤ σ.pos ∧ σ.pos < (ctx.n : Int) then
    dfsFrom ctx σ.pos.toNat (σ.mi.getD σ.pos.toNat 0) σ.grid
      || (List.range σ.pos.toNat).any fun k =>
          dfsFrom ctx k (σ.mi.getD k 0) (σ.grids.getD k 0)
  else decide ((ctx.n : Int) ≤ σ.pos)

/-! ### Basic bitmask and list lemmas -/

theorem eq_zero_iff_testBit {n : Nat} : n = 0 ↔ ∀ i, n.testBit i = false := by
  constructor
  · rintro rfl i; exact Nat.zero_testBit i
  · intro h; exact Nat.eq_of_testBit_eq fun i => by rw [h i, Nat.zero_testBit]

theorem lor_eq_zero {a b : Nat} : a ||| b = 0 ↔ a = 0 ∧ b = 0 := by
  simp only [eq_zero_iff_testBit, Nat.testBit_or]
  constructor
  · intro h
    exact ⟨fun i => by have := h i; revert this; cases a.testBit i <;> simp,
           fun i => by have := h i; revert this; cases b.testBit i <;> simp⟩
  · intro ⟨h1, h2⟩ i; rw [h1 i, h2 i]; rfl

theorem land_lor_left {a b c : Nat} : a &&& (b ||| c) = 0 ↔ a &&& b = 0 ∧ a &&& c = 0 := by
  rw [Nat.and_or_distrib_left, lor_eq_zero]

theorem land_zero_comm {a b : Nat} (h : a &&& b = 0) : b &&& a = 0 := by
  rwa [Nat.and_comm]

theorem disjZ_symm : Symmetric disjZ := fun _ _ h => land_zero_comm h

theorem getD_set_self {l : List Nat} {i : Nat} (v : Nat) (h : i < l.length) :
    (l.set i v).getD i 0 = v := by
  simp [List.getD_eq_getElem?_getD, List.getElem?_set_self, h]

theorem getD_set_ne {l : List Nat} {i j : Nat} (v : Nat) (h : i ≠ j) :
    (l.set i v).getD j 0 = l.getD j 0 := by
  simp [List.getD_eq_getElem?_getD, List.getElem?_set_ne h]

theorem getD_replicate {n i v : Nat} (h : i < n) :
    (List.replicate n v).getD i 0 = v := by
  simp [List.getD_eq_getElem?_getD, List.getElem?_replicate, h]

theorem getD_map_length (L : List (List Nat)) (p : Nat) :
    (L.map List.length).getD p 0 = (L.getD p []).length := by
  induction L generalizing p with
  | nil => simp [List.getD]
  | cons x L ih =>
    cases p with
    | zero => simp [List.getD]
    | succ p => simpa [List.getD] using ih p

theorem getD_zero_eq_headD (l : List Nat) : l.getD 0 0 = l.headD 0 := by
  cases l <;> rfl

theorem tail_getD (l : List Nat) (k : Nat) : l.tail.getD k 0 = l.getD (k + 1) 0 := by
  cases l <;> simp [List.getD]

theorem any_congr {l : List Nat} {f g : Nat → Bool}
    (h : ∀ x ∈ l, f x = g x) : l.any f = l.any g := by
  induction l with
  | nil => rfl
  | cons x l ih =>
    simp only [List.any_cons]
    rw [h x (by simp), ih fun y hy => h y (by simp [hy])]

/-! ### The short-circuited free count -/

theorem countFree_eq {needed grid : Nat} :
    ∀ (l : List Nat) (c : Nat), c < needed →
      countFree needed grid l c =
        min needed (c + l.countP fun m => decide (grid &&& m = 0)) := by
  intro l
  induction l with
  | nil => intro c hc; simp [countFree]; omega
  | cons m rest ih =>
    intro c hc
    rw [countFree]
    by_cases hm : grid &&& m = 0
    · rw [if_pos hm]
      by_cases hneed : needed ≤ c + 1
      · rw [if_pos hneed, List.countP_cons_of_pos _ _ (by simpa using hm)]
        omega
      · rw [if_neg hneed, ih (c + 1) (by omega),
          List.countP_cons_of_pos _ _ (by simpa using hm)]
        omega
    · rw [if_neg hm, ih c hc, List.countP_cons_of_neg _ _ (by simpa using hm)]

theorem countFree_ge_iff {needed grid : Nat} (hpos : 0 < needed) (l : List Nat) :
    needed ≤ countFree needed grid l 0 ↔
      needed ≤ l.countP fun m => decide (grid &&& m = 0) := by
  rw [countFree_eq l 0 hpos]
  omega

/-! ### The termination measure -/

theorem weight_pos (ls : List Nat) : 0 < weight ls := by
  induction ls with
  | nil => simp [weight]
  | cons l ls ih => simpa [weight] using Nat.mul_pos (Nat.succ_pos l) ih

theorem lexVal_lt_weight (ls : List Nat) : ∀ ms, lexVal ls ms < weight ls := by
  induction ls with
  | nil => intro ms; simp [lexVal, weight]
  | cons l ls ih =>
    intro ms
    have h1 : lexVal ls ms.tail < weight ls := ih ms.tail
    have h2 : l - ms.headD 0 ≤ l := Nat.sub_le _ _
    have h3 : (l - ms.headD 0) * weight ls ≤ l * weight ls :=
      Nat.mul_le_mul_right _ h2
    calc (l - ms.headD 0) * weight ls + lexVal ls ms.tail
        < (l - ms.headD 0) * weight ls + weight ls := by omega
      _ = (l - ms.headD 0 + 1) * weight ls := by ring
      _ ≤ (l + 1) * weight ls := Nat.mul_le_mul_right _ (by omega)

theorem lexVal_lt (ls : List Nat) :
    ∀ (p : Nat) (ms ms1 : List Nat), p < ls.length →
      (∀ k, k < p → ms1.getD k 0 = ms.getD k 0) →
      ls.getD p 0 - ms1.getD p 0 < ls.getD p 0 - ms.getD p 0 →
      lexVal ls ms1 < lexVal ls ms := by
  induction ls with
  | nil => intro p _ _ hp; simp at hp
  | cons l ls ih =>
    intro p ms ms1 hp hpre hdec
    cases p with
    | zero =>
      simp only [List.getD_cons_zero] at hdec
      rw [lexVal, lexVal]
      rw [← getD_zero_eq_headD, ← getD_zero_eq_headD]
      have hW := weight_pos ls
      have h1 : lexVal ls ms1.tail < weight ls := lexVal_lt_weight ls _
      have h2 : (l - ms1.getD 0 0) + 1 ≤ l - ms.getD 0 0 := hdec
      have h3 : ((l - ms1.getD 0 0) + 1) * weight ls ≤ (l - ms.getD 0 0) * weight ls :=
        Nat.mul_le_mul_right _ h2
      have h4 : (l - ms1.getD 0 0) * weight ls + weight ls ≤ (l - ms.getD 0 0) * weight ls := by
        calc (l - ms1.getD 0 0) * weight ls + weight ls
            = ((l - ms1.getD 0 0) + 1) * weight ls := by ring
          _ ≤ _ := h3
      omega
    | succ p =>
      have hhead : ms1.getD 0 0 = ms.getD 0 0 := hpre 0 (Nat.succ_pos p)
      rw [lexVal, lexVal, ← getD_zero_eq_headD, ← getD_zero_eq_headD, hhead]
      have htail : lexVal ls ms1.tail < lexVal ls ms.tail := by
        apply ih p ms.tail ms1.tail (by simpa using hp)
        · intro k hk
          rw [tail_getD, tail_getD]
          exact hpre (k + 1) (by omega)
        · rw [tail_getD, tail_getD]
          simpa [List.getD_cons_succ] using hdec
      omega

/-! ### Unfolding the inner placement scan -/

theorem findCommit_none_ge {ctx : Ctx} {masks : List Nat} {grid pos : Nat} :
    ∀ start, masks.length ≤ start → findCommit ctx masks grid pos start = none := by
  intro start h
  rw [findCommit]
  simp [Nat.not_lt.mpr h]

theorem dfsFrom_of_findCommit_none {ctx : Ctx} {k grid : Nat} (hk : k < ctx.n) :
    ∀ start, findCommit ctx (ctx.instMasks.getD k []) grid k start = none →
      dfsFrom ctx k start grid = false := by
  intro start
  have hterm : (ctx.instMasks.getD k []).length - start ≤
      (ctx.instMasks.getD k []).length - start := le_refl _
  generalize hd : (ctx.instMasks.getD k []).length - start = d at hterm
  clear hterm
  induction d generalizing start with
  | zero =>
    intro _
    rw [dfsFrom, dif_pos hk]
    have : ¬ start < (ctx.instMasks.getD k []).length := by omega
    rw [dif_neg this]
  | succ d ih =>
    intro hfc
    by_cases hs : start < (ctx.instMasks.getD k []).length
    · rw [findCommit, dif_pos hs] at hfc
      by_cases hcond : (decide (grid &&& (ctx.instMasks.getD k []).getD start 0 = 0) &&
          forwardOk ctx k (grid ||| (ctx.instMasks.getD k []).getD start 0)) = true
      · simp only [hcond, if_pos] at hfc
        exact absurd hfc (by simp)
      · rw [if_neg hcond] at hfc
        rw [dfsFrom, dif_pos hk, dif_pos hs, if_neg hcond]
        exact ih (start + 1) (by omega) hfc
    · rw [dfsFrom, dif_pos hk, dif_neg hs]

theorem dfsFrom_of_findCommit_some {ctx : Ctx} {k grid : Nat} (hk : k < ctx.n) :
    ∀ start i, findCommit ctx (ctx.instMasks.getD k []) grid k start = some i →
      start ≤ i ∧ i < (ctx.instMasks.getD k []).length ∧
      (decide (grid &&& (ctx.instMasks.getD k []).getD i 0 = 0) &&
        forwardOk ctx k (grid ||| (ctx.instMasks.getD k []).getD i 0)) = true ∧
      dfsFrom ctx k start grid =
        (dfsFrom ctx (k + 1) (if sameNextAt ctx k then i + 1 else 0)
            (grid ||| (ctx.instMasks.getD k []).getD i 0)
          || dfsFrom ctx k (i + 1) grid) := by
  intro start
  have hterm : (ctx.instMasks.getD k []).length - start ≤
      (ctx.instMasks.getD k []).length - start := le_refl _
  generalize hd : (ctx.instMasks.getD k []).length - start = d at hterm
  clear hterm
  induction d generalizing start with
  | zero =>
    intro i hfc
    rw [findCommit] at hfc
    have : ¬ start < (ctx.instMasks.getD k []).length := by omega
    rw [dif_neg this] at hfc
    exact absurd hfc (by simp)
  | succ d ih =>
    intro i hfc
    by_cases hs : start < (ctx.instMasks.getD k []).length
    · rw [findCommit, dif_pos hs] at hfc
      by_cases hcond : (decide (grid &&& (ctx.instMasks.getD k []).getD start 0 = 0) &&
          forwardOk ctx k (grid ||| (ctx.instMasks.getD k []).getD start 0)) = true
      · simp only [hcond, if_pos, Option.some.injEq] at hfc
        subst hfc
        refine ⟨le_refl _, hs, hcond, ?_⟩
        rw [dfsFrom, dif_pos hk, dif_pos hs, if_pos hcond]
      · rw [if_neg hcond] at hfc
        obtain ⟨h1, h2, h3, h4⟩ := ih (start + 1) (by omega) i hfc
        refine ⟨by omega, h2, h3, ?_⟩
        rw [dfsFrom, dif_pos hk, dif_pos hs, if_neg hcond]
        exact h4
    · rw [findCommit, dif_neg hs] at hfc
      exact absurd hfc (by simp)

/-! ### The loop simulates the recursive search -/

theorem measure_toNat (σ : SRState) (h : 0 ≤ σ.pos) : (σ.pos + 1).toNat = σ.pos.toNat + 1 := by
  omega

theorem measureOf_mk (ctx : Ctx) (mi grids : List Nat) (grid : Nat) (pos : Int) :
    measureOf ctx ⟨mi, grids, grid, pos⟩
      = (ctx.n + 2) * lexVal (lenList ctx) mi + (pos + 1).toNat := rfl

theorem loopSem_mk (ctx : Ctx) (mi grids : List Nat) (grid : Nat) (pos : Int) :
    loopSem ctx ⟨mi, grids, grid, pos⟩
      = if 0 ≤ pos ∧ pos < (ctx.n : Int) then
          dfsFrom ctx pos.toNat (mi.getD pos.toNat 0) grid
            || (List.range pos.toNat).any fun k =>
                dfsFrom ctx k (mi.getD k 0) (grids.getD k 0)
        else decide ((ctx.n : Int) ≤ pos) := rfl

theorem runLoop_sem (ctx : Ctx) :
    ∀ (fuel : Nat) (σ : SRState),
      σ.mi.length = ctx.n + 1 → σ.grids.length = ctx.n → σ.pos ≤ (ctx.n : Int) →
      measureOf ctx σ < fuel →
      runLoop ctx fuel σ = some (loopSem ctx σ) := by
  intro fuel
  induction fuel with
  | zero => intro σ _ _ _ hm; omega
  | succ fuel ih =>
    intro σ hmi hgr hposn hm
    by_cases hguard : 0 ≤ σ.pos ∧ σ.pos < (ctx.n : Int)
    case neg =>
      rw [runLoop, if_neg hguard, loopSem, if_neg hguard]
    case pos =>
      rw [runLoop, if_pos hguard]
      set p := σ.pos.toNat with hpdef
      have hp : (p : Int) = σ.pos := Int.toNat_of_nonneg hguard.1
      have hpn : p < ctx.n := by omega
      have hplen : p < ctx.n + 1 := by omega
      rw [loopSem, if_pos hguard]
      cases hfc : findCommit ctx (ctx.instMasks.getD p []) σ.grid p (σ.mi.getD p 0) with
      | some i =>
        obtain ⟨hstart, hlen, hcheck, hsem⟩ := dfsFrom_of_findCommit_some hpn _ i hfc
        have hstep : stepLoop ctx σ =
            { mi := (σ.mi.set p (i + 1)).set (p + 1)
                (if sameNextAt ctx p then i + 1 else 0)
              grids := σ.grids.set p σ.grid
              grid := σ.grid ||| (ctx.instMasks.getD p []).getD i 0
              pos := σ.pos + 1 } := by
          rw [stepLoop]
          rw [← hpdef, hfc]
        rw [hstep]
        -- the new state is well formed and smaller
        have hmi1 : ((σ.mi.set p (i + 1)).set (p + 1)
            (if sameNextAt ctx p then i + 1 else 0)).length = ctx.n + 1 := by
          simp [hmi]
        have hgr1 : (σ.grids.set p σ.grid).length = ctx.n := by simp [hgr]
        have hlex : lexVal (lenList ctx)
            ((σ.mi.set p (i + 1)).set (p + 1) (if sameNextAt ctx p then i + 1 else 0))
            < lexVal (lenList ctx) σ.mi := by
          apply lexVal_lt (lenList ctx) p
          · simpa [lenList] using hpn
          · intro k hk
            rw [getD_set_ne _ (by omega), getD_set_ne _ (by omega)]
          · rw [getD_set_ne _ (by omega), getD_set_self _ (by simp [hmi]; omega)]
            rw [lenList, getD_map_length]
            omega
        have hmeasure : measureOf ctx
            { mi := (σ.mi.set p (i + 1)).set (p + 1)
                (if sameNextAt ctx p then i + 1 else 0)
              grids := σ.grids.set p σ.grid
              grid := σ.grid ||| (ctx.instMasks.getD p []).getD i 0
              pos := σ.pos + 1 } < measureOf ctx σ := by
          rw [measureOf, measureOf]
          dsimp only
          have hmul : (ctx.n + 2) * (lexVal (lenList ctx)
              ((σ.mi.set p (i + 1)).set (p + 1) (if sameNextAt ctx p then i + 1 else 0)) + 1)
              ≤ (ctx.n + 2) * lexVal (lenList ctx) σ.mi :=
            Nat.mul_le_mul_left _ (by omega)
          have hexp : (ctx.n + 2) * (lexVal (lenList ctx)
              ((σ.mi.set p (i + 1)).set (p + 1) (if sameNextAt ctx p then i + 1 else 0)) + 1)
              = (ctx.n + 2) * lexVal (lenList ctx)
                ((σ.mi.set p (i + 1)).set (p + 1) (if sameNextAt ctx p then i + 1 else 0))
                + (ctx.n + 2) := by ring
          omega
        rw [ih _ hmi1 hgr1 (by show σ.pos + 1 ≤ (ctx.n : Int); omega) (by
          have := hmeasure
          omega)]
        congr 1
        -- the semantics is preserved by a commit step
        by_cases hnext : σ.pos + 1 < (ctx.n : Int)
        · rw [loopSem, if_pos ⟨by show (0 : Int) ≤ σ.pos + 1; omega, hnext⟩]
          simp only []
          have hpt : (σ.pos + 1).toNat = p + 1 := by omega
          rw [hpt]
          have hmiv : ((σ.mi.set p (i + 1)).set (p + 1)
              (if sameNextAt ctx p then i + 1 else 0)).getD (p + 1) 0
              = (if sameNextAt ctx p then i + 1 else 0) :=
            getD_set_self _ (by simp [hmi]; omega)
          rw [hmiv]
          rw [List.range_succ, List.any_append]
          have hentry : (List.any [p] fun k =>
              dfsFrom ctx k (((σ.mi.set p (i + 1)).set (p + 1)
                (if sameNextAt ctx p then i + 1 else 0)).getD k 0)
                ((σ.grids.set p σ.grid).getD k 0))
              = dfsFrom ctx p (i + 1) σ.grid := by
            simp only [List.any_cons, List.any_nil, Bool.or_false]
            rw [getD_set_ne _ (by omega), getD_set_self _ (by simp [hmi]; omega),
              getD_set_self _ (by rw [hgr]; exact hpn)]
          rw [hentry]
          have hrest : (List.any (List.range p) fun k =>
              dfsFrom ctx k (((σ.mi.set p (i + 1)).set (p + 1)
                (if sameNextAt ctx p then i + 1 else 0)).getD k 0)
                ((σ.grids.set p σ.grid).getD k 0))
              = List.any (List.range p) fun k =>
                dfsFrom ctx k (σ.mi.getD k 0) (σ.grids.getD k 0) := by
            apply any_congr
            intro k hk
            have hkp : k < p := List.mem_range.mp hk
            rw [getD_set_ne _ (by omega), getD_set_ne _ (by omega),
              getD_set_ne _ (by omega)]
          rw [hrest, hsem]
          cases dfsFrom ctx (p + 1) (if sameNextAt ctx p then i + 1 else 0)
              (σ.grid ||| (ctx.instMasks.getD p []).getD i 0) <;>
            cases dfsFrom ctx p (i + 1) σ.grid <;>
            cases List.any (List.range p) (fun k =>
              dfsFrom ctx k (σ.mi.getD k 0) (σ.grids.getD k 0)) <;> rfl
        · rw [loopSem, if_neg (by intro hcon; exact hnext hcon.2)]
          have : ((ctx.n : Int) ≤ σ.pos + 1) := by omega
          rw [decide_eq_true this]
          have hone : p + 1 = ctx.n := by omega
          have hdeep : dfsFrom ctx (p + 1) (if sameNextAt ctx p then i + 1 else 0)
              (σ.grid ||| (ctx.instMasks.getD p []).getD i 0) = true := by
            rw [dfsFrom, dif_neg (by omega)]
          rw [hsem, hdeep]
          rfl
      | none =>
        have hcur : dfsFrom ctx p (σ.mi.getD p 0) σ.grid = false :=
          dfsFrom_of_findCommit_none hpn _ hfc
        have hstep : stepLoop ctx σ =
            ⟨σ.mi, σ.grids,
              if 0 ≤ σ.pos - 1 then σ.grids.getD (σ.pos - 1).toNat 0 else σ.grid,
              σ.pos - 1⟩ := by
          rw [stepLoop]
          rw [← hpdef, hfc]
        rw [hstep]
        have hmeasure : measureOf ctx
            ⟨σ.mi, σ.grids,
              if 0 ≤ σ.pos - 1 then σ.grids.getD (σ.pos - 1).toNat 0 else σ.grid,
              σ.pos - 1⟩ < measureOf ctx σ := by
          rw [measureOf_mk, measureOf]
          omega
        rw [ih _ (by show σ.mi.length = ctx.n + 1; exact hmi)
          (by show σ.grids.length = ctx.n; exact hgr)
          (by show σ.pos - 1 ≤ (ctx.n : Int); omega)
          (by have := hmeasure; omega)]
        congr 1
        rw [loopSem_mk]
        by_cases hzero : 0 ≤ σ.pos - 1
        · rw [if_pos ⟨hzero, by omega⟩]
          rw [if_pos hzero]
          have hpt : (σ.pos - 1).toNat = p - 1 := by omega
          rw [hpt]
          rw [hcur]
          have hp1 : 1 ≤ p := by omega
          have hrange : List.range p = List.range (p - 1) ++ [p - 1] := by
            conv_lhs => rw [show p = p - 1 + 1 from by omega]
            rw [List.range_succ]
          rw [hrange, List.any_append]
          simp only [List.any_cons, List.any_nil, Bool.or_false]
          cases dfsFrom ctx (p - 1) (σ.mi.getD (p - 1) 0) (σ.grids.getD (p - 1) 0) <;>
            cases List.any (List.range (p - 1)) (fun k =>
              dfsFrom ctx k (σ.mi.getD k 0) (σ.grids.getD k 0)) <;> rfl
        · rw [if_neg (by intro hcon; exact hzero hcon.1)]
          rw [decide_eq_false (by omega : ¬ ((ctx.n : Int) ≤ σ.pos - 1))]
          rw [hcur]
          rw [show σ.pos.toNat = 0 from by omega]
          rfl

theorem solve_loop_eq_dfs (ctx : Ctx) :
    (runLoop ctx (measureOf ctx (initState ctx.n) + 1) (initState ctx.n)).getD false
      = dfsFrom ctx 0 0 0 := by
  rw [runLoop_sem ctx _ (initState ctx.n)
    (by simp [initState]) (by simp [initState])
    (by show (0 : Int) ≤ (ctx.n : Int); omega) (by omega)]
  rw [Option.getD_some, initState, loopSem_mk]
  by_cases hn : 0 < ctx.n
  · rw [if_pos ⟨le_refl 0, by omega⟩]
    simp only [Int.toNat_zero, List.range_zero, List.any_nil, Bool.or_false]
    rw [getD_replicate (by omega)]
  · rw [if_neg (by omega)]
    rw [dfsFrom, dif_neg hn]
    rw [decide_eq_true (by omega : (ctx.n : Int) ≤ 0)]

/-! ### Bookkeeping for the grouped instance tables -/

theorem getD_append_lt {α : Type} (A B : List α) (d : α) (n : Nat) (h : n < A.length) :
    (A ++ B).getD n d = A.getD n d := by
  simp [List.getD_eq_getElem?_getD, List.getElem?_append, h]

theorem getD_append_ge {α : Type} (A B : List α) (d : α) (n : Nat) (h : A.length ≤ n) :
    (A ++ B).getD n d = B.getD (n - A.length) d := by
  simp [List.getD_eq_getElem?_getD, List.getElem?_append_right h]

theorem getD_replicate_lt {α : Type} (c : Nat) (v d : α) (o : Nat) (h : o < c) :
    (List.replicate c v).getD o d = v := by
  simp [List.getD_eq_getElem?_getD, List.getElem?_replicate, h]

theorem instMasksOf_append (xs ys : List (Nat × Nat × List Nat)) :
    instMasksOf (xs ++ ys) = instMasksOf xs ++ instMasksOf ys := by
  simp [instMasksOf]

theorem instMasksOf_cons (t : Nat × Nat × List Nat) (xs : List (Nat × Nat × List Nat)) :
    instMasksOf (t :: xs) = List.replicate t.2.1 t.2.2 ++ instMasksOf xs := by
  simp [instMasksOf]

theorem length_instMasksOf_cons (t : Nat × Nat × List Nat) (xs : List (Nat × Nat × List Nat)) :
    (instMasksOf (t :: xs)).length = t.2.1 + (instMasksOf xs).length := by
  simp [instMasksOf]

theorem length_instMasksOf_append (xs ys : List (Nat × Nat × List Nat)) :
    (instMasksOf (xs ++ ys)).length
      = (instMasksOf xs).length + (instMasksOf ys).length := by
  rw [instMasksOf_append, List.length_append]

theorem length_instMasksOf_nil : (instMasksOf []).length = 0 := rfl

theorem length_instMasksOf_single (t : Nat × Nat × List Nat) :
    (instMasksOf [t]).length = t.2.1 := by
  simp [instMasksOf]

theorem ctxOf_instMasks (tms : List (Nat × Nat × List Nat)) :
    (ctxOf tms).instMasks = instMasksOf tms := rfl

theorem ctxOf_n (tms : List (Nat × Nat × List Nat)) :
    (ctxOf tms).n = (instMasksOf tms).length := rfl

theorem ctxOf_groupBounds (tms : List (Nat × Nat × List Nat)) :
    (ctxOf tms).groupBounds = groupBoundsAux tms 0 := rfl

theorem ctxOf_instGid (tms : List (Nat × Nat × List Nat)) :
    (ctxOf tms).instGid = instGidAux tms 0 := rfl

theorem groupBoundsAux_append (xs ys : List (Nat × Nat × List Nat)) : ∀ i,
    groupBoundsAux (xs ++ ys) i
      = groupBoundsAux xs i ++ groupBoundsAux ys (i + (instMasksOf xs).length) := by
  induction xs with
  | nil => intro i; simp [groupBoundsAux, instMasksOf]
  | cons t xs ih =>
    intro i
    simp only [List.cons_append, groupBoundsAux, List.append_eq]
    rw [ih (i + t.2.1), Nat.add_assoc, length_instMasksOf_cons]

theorem groupBounds_mem (xs : List (Nat × Nat × List Nat)) :
    ∀ i gb, gb ∈ groupBoundsAux xs i →
      i ≤ gb.1 ∧ gb.2 ≤ i + (instMasksOf xs).length := by
  induction xs with
  | nil => intro i gb h; simp [groupBoundsAux] at h
  | cons t xs ih =>
    intro i gb h
    rw [groupBoundsAux] at h
    rcases List.mem_cons.mp h with rfl | h
    · simp only [length_instMasksOf_cons]
      omega
    · have := ih (i + t.2.1) gb h
      simp only [length_instMasksOf_cons]
      omega

theorem instMasks_getD (done : List (Nat × Nat × List Nat)) (t : Nat × Nat × List Nat)
    (rest : List (Nat × Nat × List Nat)) (o : Nat) (ho : o < t.2.1) :
    (instMasksOf (done ++ t :: rest)).getD ((instMasksOf done).length + o) [] = t.2.2 := by
  rw [instMasksOf_append, getD_append_ge _ _ _ _ (by omega)]
  rw [show (instMasksOf done).length + o - (instMasksOf done).length = o from by omega]
  rw [instMasksOf_cons, getD_append_lt _ _ _ _ (by simpa using ho)]
  exact getD_replicate_lt _ _ _ _ ho

theorem instGid_getD : ∀ (done : List (Nat × Nat × List Nat)) (t : Nat × Nat × List Nat)
    (rest : List (Nat × Nat × List Nat)) (o g0 : Nat), o < t.2.1 →
      (instGidAux (done ++ t :: rest) g0).getD ((instMasksOf done).length + o) 0
        = g0 + done.length := by
  intro done
  induction done with
  | nil =>
    intro t rest o g0 ho
    show (instGidAux (t :: rest) g0).getD ((instMasksOf []).length + o) 0 = g0 + 0
    rw [instGidAux]
    rw [show (instMasksOf []).length + o = o from by simp [instMasksOf]]
    rw [getD_append_lt _ _ _ _ (by simpa using ho), getD_replicate_lt _ _ _ _ ho]
    omega
  | cons d done ih =>
    intro t rest o g0 ho
    show (instGidAux (d :: (done ++ t :: rest)) g0).getD
      ((instMasksOf (d :: done)).length + o) 0 = g0 + (d :: done).length
    rw [instGidAux, length_instMasksOf_cons]
    rw [getD_append_ge _ _ _ _ (by simp; omega)]
    rw [show d.2.1 + (instMasksOf done).length + o - (List.replicate d.2.1 g0).length
      = (instMasksOf done).length + o from by simp; omega]
    rw [ih t rest o (g0 + 1) ho]
    simp
    omega

theorem n_split (done : List (Nat × Nat × List Nat)) (t : Nat × Nat × List Nat)
    (rest : List (Nat × Nat × List Nat)) :
    (instMasksOf (done ++ t :: rest)).length
      = (instMasksOf done).length + t.2.1 + (instMasksOf rest).length := by
  rw [length_instMasksOf_append, length_instMasksOf_cons]
  omega

theorem groupsOf_nil : groupsOf [] = [] := rfl

theorem groupsOf_cons (q : Nat × Nat × List Nat) (rest : List (Nat × Nat × List Nat)) :
    groupsOf (q :: rest) = (q.2.1, q.2.2) :: groupsOf rest := rfl

theorem sameNextAt_split (done : List (Nat × Nat × List Nat)) (t : Nat × Nat × List Nat)
    (rest : List (Nat × Nat × List Nat))
    (hcnt : ∀ u ∈ done ++ t :: rest, 1 ≤ u.2.1) (j : Nat) (h1 : 1 ≤ j) (h2 : j ≤ t.2.1) :
    sameNextAt (ctxOf (done ++ t :: rest)) ((instMasksOf done).length + (t.2.1 - j))
      = decide (2 ≤ j) := by
  have hn := n_split done t rest
  rw [sameNextAt, ctxOf_instGid, ctxOf_n]
  by_cases hj : 2 ≤ j
  · rw [show (instMasksOf done).length + (t.2.1 - j) + 1
      = (instMasksOf done).length + (t.2.1 - j + 1) from by omega]
    rw [instGid_getD done t rest _ 0 (by omega), instGid_getD done t rest _ 0 (by omega)]
    rw [decide_eq_true (by omega :
      (instMasksOf done).length + (t.2.1 - j + 1) < (instMasksOf (done ++ t :: rest)).length)]
    simp [hj]
  · have hj1 : j = 1 := by omega
    subst hj1
    cases rest with
    | nil =>
      have : ¬ ((instMasksOf done).length + (t.2.1 - 1) + 1
          < (instMasksOf (done ++ t :: [])).length) := by
        rw [n_split, length_instMasksOf_nil]
        omega
      rw [decide_eq_false this]
      simp
    | cons q rest2 =>
      have hq : 1 ≤ q.2.1 := hcnt q (by simp)
      have hsplit2 : done ++ t :: q :: rest2 = (done ++ [t]) ++ q :: rest2 := by simp
      have hk1 : (instMasksOf done).length + (t.2.1 - 1) + 1
          = (instMasksOf (done ++ [t])).length + 0 := by
        rw [length_instMasksOf_append, length_instMasksOf_single]
        omega
      rw [hk1, hsplit2, instGid_getD (done ++ [t]) q rest2 0 0 hq]
      rw [← hsplit2, instGid_getD done t (q :: rest2) _ 0 (by omega)]
      have : ¬ (0 + (done ++ [t]).length = 0 + done.length) := by simp
      rw [decide_eq_false this]
      simp

theorem forward_rest (tms : List (Nat × Nat × List Nat)) (newg k : Nat)
    (hcnt : ∀ u ∈ tms, 1 ≤ u.2.1) :
    ∀ (rest2 pre : List (Nat × Nat × List Nat)), tms = pre ++ rest2 →
      k + 1 ≤ (instMasksOf pre).length →
      ((groupBoundsAux rest2 (instMasksOf pre).length).all fun gb =>
        if gb.2 ≤ k + 1 then true
        else
          let needed := gb.2 - max (k + 1) gb.1
          if needed = 0 then true
          else decide (needed ≤ countFree needed newg
            ((ctxOf tms).instMasks.getD gb.1 []) 0))
      = (groupsOf rest2).all fun q => decide (q.1 ≤ countFree q.1 newg q.2 0) := by
  intro rest2
  induction rest2 with
  | nil => intro pre h1 h2; rfl
  | cons q rest2 ih =>
    intro pre hpre hk
    have hq : 1 ≤ q.2.1 := hcnt q (by rw [hpre]; simp)
    rw [groupBoundsAux, List.all_cons]
    rw [show (groupsOf (q :: rest2)) = (q.2.1, q.2.2) :: groupsOf rest2 from by
      simp [groupsOf]]
    rw [List.all_cons]
    have hhead : (if (instMasksOf pre).length + q.2.1 ≤ k + 1 then true
        else
          let needed := (instMasksOf pre).length + q.2.1 - max (k + 1) (instMasksOf pre).length
          if needed = 0 then true
          else decide (needed ≤ countFree needed newg
            ((ctxOf tms).instMasks.getD (instMasksOf pre).length []) 0))
        = decide (q.2.1 ≤ countFree q.2.1 newg q.2.2 0) := by
      rw [if_neg (by omega)]
      show (if (instMasksOf pre).length + q.2.1 - max (k + 1) (instMasksOf pre).length = 0
        then true
        else decide ((instMasksOf pre).length + q.2.1 - max (k + 1) (instMasksOf pre).length
          ≤ countFree ((instMasksOf pre).length + q.2.1 - max (k + 1) (instMasksOf pre).length)
            newg ((ctxOf tms).instMasks.getD (instMasksOf pre).length []) 0)) = _
      rw [show (instMasksOf pre).length + q.2.1 - max (k + 1) (instMasksOf pre).length
        = q.2.1 from by omega]
      rw [if_neg (by omega)]
      rw [ctxOf_instMasks, hpre,
        show (instMasksOf pre).length = (instMasksOf pre).length + 0 from by omega,
        instMasks_getD pre q rest2 0 hq]
    rw [hhead]
    congr 1
    have hpre2 : tms = (pre ++ [q]) ++ rest2 := by rw [hpre]; simp
    have hlen2 : (instMasksOf pre).length + q.2.1 = (instMasksOf (pre ++ [q])).length := by
      rw [length_instMasksOf_append, length_instMasksOf_single]
    rw [hlen2]
    exact ih (pre ++ [q]) hpre2 (by omega)

theorem forwardOk_eq_fOkG (done : List (Nat × Nat × List Nat)) (t : Nat × Nat × List Nat)
    (rest : List (Nat × Nat × List Nat))
    (hcnt : ∀ u ∈ done ++ t :: rest, 1 ≤ u.2.1) (j newg : Nat)
    (h1 : 1 ≤ j) (h2 : j ≤ t.2.1) :
    forwardOk (ctxOf (done ++ t :: rest)) ((instMasksOf done).length + (t.2.1 - j)) newg
      = fOkG newg (j - 1) t.2.2 (groupsOf rest) := by
  rw [forwardOk, ctxOf_groupBounds, groupBoundsAux_append, Nat.zero_add, List.all_append]
  rw [groupBoundsAux, List.all_cons]
  have hdone : ((groupBoundsAux done 0).all fun gb =>
      if gb.2 ≤ (instMasksOf done).length + (t.2.1 - j) + 1 then true
      else
        let needed := gb.2 - max ((instMasksOf done).length + (t.2.1 - j) + 1) gb.1
        if needed = 0 then true
        else decide (needed ≤ countFree needed newg
          ((ctxOf (done ++ t :: rest)).instMasks.getD gb.1 []) 0)) = true := by
    rw [List.all_eq_true]
    intro gb hgb
    have hb := groupBounds_mem done 0 gb hgb
    rw [if_pos (by omega)]
  rw [hdone, Bool.true_and]
  have hrest : ((groupBoundsAux rest ((instMasksOf done).length + t.2.1)).all fun gb =>
      if gb.2 ≤ (instMasksOf done).length + (t.2.1 - j) + 1 then true
      else
        let needed := gb.2 - max ((instMasksOf done).length + (t.2.1 - j) + 1) gb.1
        if needed = 0 then true
        else decide (needed ≤ countFree needed newg
          ((ctxOf (done ++ t :: rest)).instMasks.getD gb.1 []) 0))
      = (groupsOf rest).all fun q => decide (q.1 ≤ countFree q.1 newg q.2 0) := by
    have hlen2 : (instMasksOf done).length + t.2.1 = (instMasksOf (done ++ [t])).length := by
      rw [length_instMasksOf_append, length_instMasksOf_single]
    rw [hlen2]
    exact forward_rest (done ++ t :: rest) newg ((instMasksOf done).length + (t.2.1 - j))
      hcnt rest (done ++ [t]) (by simp) (by rw [← hlen2]; omega)
  rw [hrest, fOkG]
  congr 1
  -- the current group entry
  by_cases hj : 2 ≤ j
  · rw [if_neg (by omega)]
    show (if (instMasksOf done).length + t.2.1 -
        max ((instMasksOf done).length + (t.2.1 - j) + 1) (instMasksOf done).length = 0
      then true
      else decide ((instMasksOf done).length + t.2.1 -
          max ((instMasksOf done).length + (t.2.1 - j) + 1) (instMasksOf done).length
        ≤ countFree ((instMasksOf done).length + t.2.1 -
            max ((instMasksOf done).length + (t.2.1 - j) + 1) (instMasksOf done).length)
          newg ((ctxOf (done ++ t :: rest)).instMasks.getD (instMasksOf done).length []) 0)) = _
    rw [show (instMasksOf done).length + t.2.1 -
        max ((instMasksOf done).length + (t.2.1 - j) + 1) (instMasksOf done).length
      = j - 1 from by omega]
    rw [if_neg (by omega)]
    rw [ctxOf_instMasks,
      show (instMasksOf done).length = (instMasksOf done).length + 0 from by omega,
      instMasks_getD done t rest 0 (by omega)]
    rw [Bool.eq_iff_iff]
    simp only [Bool.or_eq_true, decide_eq_true_eq]
    omega
  · have hj1 : j = 1 := by omega
    subst hj1
    rw [if_pos (by omega)]
    simp

/-! ### The flat search agrees with the grouped search -/

theorem dfsG_zero_nil (g s : Nat) (masks : List Nat) : dfsG g s 0 masks [] = true := by
  rw [dfsG]

theorem dfsG_zero_cons (g s : Nat) (masks : List Nat) (q : Nat × List Nat)
    (rest1 : List (Nat × List Nat)) :
    dfsG g s 0 masks (q :: rest1) = dfsG g 0 q.1 q.2 rest1 := by
  rw [dfsG]

theorem dfsG_succ_lt (g s j : Nat) (masks : List Nat) (rest : List (Nat × List Nat))
    (hs : s < masks.length) :
    dfsG g s (j + 1) masks rest =
      (if decide (g &&& masks.getD s 0 = 0) && fOkG (g ||| masks.getD s 0) j masks rest then
        (dfsG (g ||| masks.getD s 0) (s + 1) j masks rest
          || dfsG g (s + 1) (j + 1) masks rest)
      else dfsG g (s + 1) (j + 1) masks rest) := by
  rw [dfsG]
  rw [dif_pos hs]

theorem dfsG_succ_ge (g s j : Nat) (masks : List Nat) (rest : List (Nat × List Nat))
    (hs : ¬ s < masks.length) :
    dfsG g s (j + 1) masks rest = false := by
  rw [dfsG]
  rw [dif_neg hs]

theorem dfsFrom_eq_dfsG (tms : List (Nat × Nat × List Nat))
    (hcnt : ∀ u ∈ tms, 1 ≤ u.2.1) :
    ∀ (N : Nat) (done : List (Nat × Nat × List Nat)) (t : Nat × Nat × List Nat)
      (rest : List (Nat × Nat × List Nat)) (j s g : Nat), tms = done ++ t :: rest →
      1 ≤ j → j ≤ t.2.1 →
      (instMasksOf tms).length - ((instMasksOf done).length + (t.2.1 - j)) ≤ N →
      dfsFrom (ctxOf tms) ((instMasksOf done).length + (t.2.1 - j)) s g
        = dfsG g s j t.2.2 (groupsOf rest) := by
  intro N
  induction N with
  | zero =>
    intro done t rest j s g hsplit h1 h2 hN
    exfalso
    rw [hsplit, n_split] at hN
    omega
  | succ N ihN =>
    intro done t rest j s g hsplit h1 h2 hN
    have hk : (instMasksOf done).length + (t.2.1 - j) < (instMasksOf tms).length := by
      rw [hsplit, n_split]
      omega
    obtain ⟨jj, rfl⟩ : ∃ jj, j = jj + 1 := ⟨j - 1, by omega⟩
    have inner : ∀ (L s g : Nat), t.2.2.length - s ≤ L →
        dfsFrom (ctxOf tms) ((instMasksOf done).length + (t.2.1 - (jj + 1))) s g
          = dfsG g s (jj + 1) t.2.2 (groupsOf rest) := by
      intro L
      induction L with
      | zero =>
        intro s g hL
        rw [dfsFrom, dif_pos (by rw [ctxOf_n]; exact hk)]
        rw [dfsG_succ_ge _ _ _ _ _ (by omega)]
        have hsge : ¬ s < ((ctxOf tms).instMasks.getD
            ((instMasksOf done).length + (t.2.1 - (jj + 1))) []).length := by
          rw [ctxOf_instMasks, hsplit, instMasks_getD done t rest _ (by omega)]
          omega
        rw [dif_neg hsge]
      | succ L ihL =>
        intro s g hL
        rw [dfsFrom, dif_pos (by rw [ctxOf_n]; exact hk)]
        have hmask : (ctxOf tms).instMasks.getD
            ((instMasksOf done).length + (t.2.1 - (jj + 1))) [] = t.2.2 := by
          rw [ctxOf_instMasks, hsplit, instMasks_getD done t rest _ (by omega)]
        by_cases hs : s < t.2.2.length
        case neg =>
          rw [dif_neg (by rw [hmask]; exact hs)]
          rw [dfsG_succ_ge _ _ _ _ _ hs]
        case pos =>
          rw [dif_pos (by rw [hmask]; exact hs)]
          rw [dfsG_succ_lt _ _ _ _ _ hs]
          rw [hmask]
          have hfok : forwardOk (ctxOf tms)
              ((instMasksOf done).length + (t.2.1 - (jj + 1)))
              (g ||| t.2.2.getD s 0) = fOkG (g ||| t.2.2.getD s 0) jj t.2.2 (groupsOf rest) := by
            rw [hsplit]
            have h := forwardOk_eq_fOkG done t rest (by rw [← hsplit]; exact hcnt) (jj + 1)
              (g ||| t.2.2.getD s 0) (by omega) h2
            simpa using h
          rw [hfok]
          by_cases hcond : (decide (g &&& t.2.2.getD s 0 = 0)
              && fOkG (g ||| t.2.2.getD s 0) jj t.2.2 (groupsOf rest)) = true
          case neg =>
            rw [if_neg hcond, if_neg hcond]
            exact ihL (s + 1) g (by omega)
          case pos =>
            rw [if_pos hcond, if_pos hcond]
            have hskip : dfsFrom (ctxOf tms)
                ((instMasksOf done).length + (t.2.1 - (jj + 1))) (s + 1) g
                = dfsG g (s + 1) (jj + 1) t.2.2 (groupsOf rest) :=
              ihL (s + 1) g (by omega)
            rw [hskip]
            congr 1
            -- the deeper call
            have hsame : sameNextAt (ctxOf tms)
                ((instMasksOf done).length + (t.2.1 - (jj + 1))) = decide (2 ≤ jj + 1) := by
              rw [hsplit]
              exact sameNextAt_split done t rest (by rw [← hsplit]; exact hcnt) (jj + 1)
                (by omega) h2
            rw [hsame]
            by_cases hjj : 1 ≤ jj
            · rw [decide_eq_true (by omega : 2 ≤ jj + 1)]
              rw [if_pos rfl]
              have hknext : (instMasksOf done).length + (t.2.1 - (jj + 1)) + 1
                  = (instMasksOf done).length + (t.2.1 - jj) := by omega
              rw [hknext]
              exact ihN done t rest jj (s + 1) (g ||| t.2.2.getD s 0) hsplit hjj
                (by omega) (by rw [hsplit, n_split] at hN ⊢; omega)
            · have hjj0 : jj = 0 := by omega
              subst hjj0
              rw [decide_eq_false (by omega : ¬ 2 ≤ 0 + 1)]
              rw [if_neg (by simp)]
              cases hrest : rest with
              | nil =>
                rw [groupsOf_nil, dfsG_zero_nil]
                rw [dfsFrom, dif_neg]
                rw [ctxOf_n, hsplit, hrest, n_split, length_instMasksOf_nil]
                omega
              | cons q rest2 =>
                rw [groupsOf_cons, dfsG_zero_cons]
                have hsplit2 : tms = (done ++ [t]) ++ q :: rest2 := by
                  rw [hsplit, hrest]; simp
                have hknext : (instMasksOf done).length + (t.2.1 - (0 + 1)) + 1
                    = (instMasksOf (done ++ [t])).length + (q.2.1 - q.2.1) := by
                  rw [length_instMasksOf_append, length_instMasksOf_single]
                  omega
                rw [hknext]
                have := ihN (done ++ [t]) q rest2 q.2.1 0 (g ||| t.2.2.getD s 0) hsplit2
                  (hcnt q (by rw [hsplit, hrest]; simp)) (le_refl _)
                  (by rw [hsplit2, n_split] at hN ⊢; omega)
                rw [this]
    exact inner (t.2.2.length - s) s g (le_refl _)

theorem dfsFrom_zero_eq (t : Nat × Nat × List Nat) (rest : List (Nat × Nat × List Nat))
    (hcnt : ∀ u ∈ t :: rest, 1 ≤ u.2.1) :
    dfsFrom (ctxOf (t :: rest)) 0 0 0 = dfsG 0 0 t.2.1 t.2.2 (groupsOf rest) := by
  have := dfsFrom_eq_dfsG (t :: rest) hcnt (instMasksOf (t :: rest)).length
    [] t rest t.2.1 0 0 rfl (hcnt t (by simp)) (le_refl _) (by omega)
  simpa [length_instMasksOf_nil] using this

/-! ### Semantics of the grouped search -/

theorem lor_land_eq_zero {a b c : Nat} :
    (a ||| b) &&& c = 0 ↔ a &&& c = 0 ∧ b &&& c = 0 := by
  rw [Nat.and_distrib_right, lor_eq_zero]

theorem OKext_nil (g : Nat) : OKext g [] :=
  ⟨fun m h => absurd h (List.not_mem_nil m), List.Pairwise.nil⟩

theorem OKext_cons {g m : Nat} {l : List Nat} :
    OKext g (m :: l) ↔ g &&& m = 0 ∧ OKext (g ||| m) l := by
  unfold OKext
  rw [List.pairwise_cons]
  constructor
  · rintro ⟨hall, hm, hpw⟩
    refine ⟨hall m (by simp), fun x hx => ?_, hpw⟩
    exact lor_land_eq_zero.mpr ⟨hall x (List.mem_cons_of_mem _ hx), hm x hx⟩
  · rintro ⟨hm0, hall, hpw⟩
    refine ⟨?_, fun x hx => (lor_land_eq_zero.mp (hall x hx)).2, hpw⟩
    intro x hx
    rcases List.mem_cons.mp hx with rfl | hx
    · exact hm0
    · exact (lor_land_eq_zero.mp (hall x hx)).1

theorem drop_cons_getD {l : List Nat} {s : Nat} (hs : s < l.length) :
    l.drop s = l.getD s 0 :: l.drop (s + 1) := by
  rw [List.drop_eq_getElem_cons hs]
  congr 1
  simp [List.getD_eq_getElem?_getD, List.getElem?_eq_getElem hs]

theorem drop_succ_sublist (l : List Nat) (s : Nat) : l.drop (s + 1) <+ l.drop s := by
  have h2 : (l.drop s).tail = l.drop (s + 1) := by
    rw [← List.drop_one, List.drop_drop]
  rw [← h2]
  exact List.tail_sublist _

theorem GroupPick_mem {rest : List (Nat × List Nat)} {ps : List (List Nat)}
    (h : GroupPick rest ps) :
    ∀ q ∈ rest, ∃ pr ∈ ps, pr.length = q.1 ∧ pr <+ q.2 := by
  induction h with
  | nil => intro q hq; exact absurd hq (List.not_mem_nil q)
  | cons hR hrest ih =>
    intro q hq
    rcases List.mem_cons.mp hq with rfl | hq
    · exact ⟨_, by simp, hR.1, hR.2⟩
    · obtain ⟨pr, hpr, h1, h2⟩ := ih q hq
      exact ⟨pr, by simp [hpr], h1, h2⟩

theorem SpecTail_zero_nil (g s : Nat) (masks : List Nat) : SpecTail g s 0 masks [] :=
  ⟨[], [], rfl, List.nil_sublist _, List.Forall₂.nil, OKext_nil g⟩

theorem SpecTail_advance (g s : Nat) (masks : List Nat) (q : Nat × List Nat)
    (rest1 : List (Nat × List Nat)) :
    SpecTail g s 0 masks (q :: rest1) ↔ SpecTail g 0 q.1 q.2 rest1 := by
  constructor
  · rintro ⟨p, ps, hlen, hsub, hpick, hok⟩
    have hp : p = [] := List.length_eq_zero.mp hlen
    subst hp
    cases hpick with
    | cons hR hrest =>
      exact ⟨_, _, hR.1, by simpa [List.drop_zero] using hR.2, hrest, by simpa using hok⟩
  · rintro ⟨p, ps, hlen, hsub, hpick, hok⟩
    exact ⟨[], p :: ps, rfl, List.nil_sublist _,
      List.Forall₂.cons ⟨hlen, by simpa [List.drop_zero] using hsub⟩ hpick,
      by simpa using hok⟩

theorem SpecTail_len_le {g s j : Nat} {masks : List Nat} {rest : List (Nat × List Nat)}
    (hle : masks.length ≤ s) (hj : 1 ≤ j) : ¬ SpecTail g s j masks rest := by
  rintro ⟨p, ps, hlen, hsub, -, -⟩
  rw [List.drop_eq_nil_of_le hle] at hsub
  have hp : p = [] := List.sublist_nil.mp hsub
  subst hp
  simp at hlen
  omega

theorem SpecTail_cons_iff {g s j : Nat} {masks : List Nat} {rest : List (Nat × List Nat)}
    (hs : s < masks.length) :
    SpecTail g s (j + 1) masks rest ↔
      ((g &&& masks.getD s 0 = 0
          ∧ SpecTail (g ||| masks.getD s 0) (s + 1) j masks rest)
        ∨ SpecTail g (s + 1) (j + 1) masks rest) := by
  constructor
  · rintro ⟨p, ps, hlen, hsub, hpick, hok⟩
    cases p with
    | nil => simp at hlen
    | cons m0 p1 =>
      rw [drop_cons_getD hs] at hsub
      cases hsub with
      | cons _ h =>
        right
        exact ⟨m0 :: p1, ps, hlen, h, hpick, hok⟩
      | cons₂ _ h =>
        left
        have hok2 := OKext_cons.mp (by simpa using hok :
          OKext g (masks.getD s 0 :: (p1 ++ ps.flatten)))
        exact ⟨hok2.1, p1, ps, by simpa using hlen, h, hpick, hok2.2⟩
  · rintro (⟨hm, p, ps, hlen, hsub, hpick, hok⟩ | ⟨p, ps, hlen, hsub, hpick, hok⟩)
    · refine ⟨masks.getD s 0 :: p, ps, by simpa using hlen, ?_, hpick, ?_⟩
      · rw [drop_cons_getD hs]
        exact hsub.cons₂ _
      · exact OKext_cons.mpr ⟨hm, hok⟩
    · exact ⟨p, ps, hlen, hsub.trans (drop_succ_sublist masks s), hpick, hok⟩

theorem fOkG_of_spec {newg s j : Nat} {masks : List Nat} {rest : List (Nat × List Nat)}
    (h : SpecTail newg s j masks rest) : fOkG newg j masks rest = true := by
  obtain ⟨p, ps, hlen, hsub, hpick, hok⟩ := h
  rw [fOkG, Bool.and_eq_true]
  constructor
  · by_cases hj : j = 0
    · simp [hj]
    · rw [Bool.or_eq_true]
      right
      rw [decide_eq_true_eq, countFree_ge_iff (by omega)]
      have hcount : p.countP (fun x => decide (newg &&& x = 0)) = p.length :=
        List.countP_eq_length.mpr fun x hx => by
          simp [hok.1 x (List.mem_append_left _ hx)]
      have hle : p.countP (fun x => decide (newg &&& x = 0))
          ≤ masks.countP (fun x => decide (newg &&& x = 0)) :=
        (hsub.trans (List.drop_sublist _ _)).countP_le _
      omega
  · rw [List.all_eq_true]
    intro q hq
    obtain ⟨pr, hpr, hlenq, hsubq⟩ := GroupPick_mem hpick q hq
    rw [decide_eq_true_eq]
    by_cases hq1 : q.1 = 0
    · rw [hq1]
      exact Nat.zero_le _
    · rw [countFree_ge_iff (by omega)]
      have hcount : pr.countP (fun x => decide (newg &&& x = 0)) = pr.length :=
        List.countP_eq_length.mpr fun x hx => by
          have hxf : x ∈ ps.flatten := List.mem_flatten.mpr ⟨pr, hpr, hx⟩
          simp [hok.1 x (List.mem_append_right _ hxf)]
      have hle : pr.countP (fun x => decide (newg &&& x = 0))
          ≤ q.2.countP (fun x => decide (newg &&& x = 0)) := hsubq.countP_le _
      omega

theorem dfsG_iff_step (rest : List (Nat × List Nat)) (j : Nat)
    (ihj : ∀ (masks : List Nat) (s g : Nat),
      dfsG g s j masks rest = true ↔ SpecTail g s j masks rest) :
    ∀ (masks : List Nat) (s g : Nat),
      dfsG g s (j + 1) masks rest = true ↔ SpecTail g s (j + 1) masks rest := by
  intro masks
  have inner : ∀ (L s g : Nat), masks.length - s ≤ L →
      (dfsG g s (j + 1) masks rest = true ↔ SpecTail g s (j + 1) masks rest) := by
    intro L
    induction L with
    | zero =>
      intro s g hL
      rw [dfsG_succ_ge _ _ _ _ _ (by omega)]
      simp only [Bool.false_eq_true, false_iff]
      exact SpecTail_len_le (by omega) (by omega)
    | succ L ihL =>
      intro s g hL
      by_cases hs : s < masks.length
      case neg =>
        rw [dfsG_succ_ge _ _ _ _ _ hs]
        simp only [Bool.false_eq_true, false_iff]
        exact SpecTail_len_le (by omega) (by omega)
      case pos =>
        rw [dfsG_succ_lt _ _ _ _ _ hs, SpecTail_cons_iff hs]
        by_cases hcond : (decide (g &&& masks.getD s 0 = 0)
            && fOkG (g ||| masks.getD s 0) j masks rest) = true
        · rw [if_pos hcond, Bool.or_eq_true, ihj _ (s + 1) _,
            ihL (s + 1) g (by omega)]
          constructor
          · rintro (hdeep | hskip)
            · refine Or.inl ⟨?_, hdeep⟩
              have h2 := hcond
              rw [Bool.and_eq_true] at h2
              simpa using h2.1
            · exact Or.inr hskip
          · rintro (⟨hm, hdeep⟩ | hskip)
            · exact Or.inl hdeep
            · exact Or.inr hskip
        · rw [if_neg hcond, ihL (s + 1) g (by omega)]
          constructor
          · exact Or.inr
          · rintro (⟨hm, hdeep⟩ | hskip)
            · exfalso
              apply hcond
              rw [Bool.and_eq_true, decide_eq_true_eq]
              exact ⟨hm, fOkG_of_spec hdeep⟩
            · exact hskip
  intro s g
  exact inner (masks.length - s) s g (le_refl _)

theorem dfsG_iff : ∀ (rest : List (Nat × List Nat)) (j : Nat) (masks : List Nat)
    (s g : Nat), dfsG g s j masks rest = true ↔ SpecTail g s j masks rest := by
  intro rest
  induction rest with
  | nil =>
    intro j
    induction j with
    | zero =>
      intro masks s g
      rw [dfsG_zero_nil]
      exact ⟨fun _ => SpecTail_zero_nil g s masks, fun _ => rfl⟩
    | succ j ihj => exact dfsG_iff_step [] j fun masks s g => ihj masks s g
  | cons q rest1 ihrest =>
    intro j
    induction j with
    | zero =>
      intro masks s g
      rw [dfsG_zero_cons, ihrest q.1 q.2 0 g]
      exact (SpecTail_advance g s masks q rest1).symm
    | succ j ihj => exact dfsG_iff_step (q :: rest1) j fun masks s g => ihj masks s g

/-! ### From grouped selections to the flat brute force -/

theorem land_self_eq (a : Nat) : a &&& a = a :=
  Nat.eq_of_testBit_eq fun i => by rw [Nat.testBit_and, Bool.and_self]

theorem forall₂_append_both {α β : Type} {R : α → β → Prop} :
    ∀ {a : List α} {l₁ : List β} {b : List α} {l₂ : List β},
      List.Forall₂ R a l₁ → List.Forall₂ R b l₂ → List.Forall₂ R (a ++ b) (l₁ ++ l₂) := by
  intro a l₁ b l₂ h1 h2
  induction h1 with
  | nil => simpa using h2
  | cons hR h ih => exact List.Forall₂.cons hR ih

theorem flatten_perm_of_forall₂ : ∀ {ps ps2 : List (List Nat)},
    List.Forall₂ (fun a b => a ~ b) ps ps2 → ps.flatten ~ ps2.flatten := by
  intro ps ps2 h
  induction h with
  | nil => rfl
  | cons hR h ih => exact hR.append ih

theorem OKext_perm {g : Nat} {l l2 : List Nat} (h : l ~ l2) : OKext g l ↔ OKext g l2 := by
  unfold OKext
  rw [h.pairwise_iff fun hab => disjZ_symm hab]
  constructor
  · rintro ⟨ha, hp⟩
    exact ⟨fun m hm => ha m (h.mem_iff.mpr hm), hp⟩
  · rintro ⟨ha, hp⟩
    exact ⟨fun m hm => ha m (h.mem_iff.mp hm), hp⟩

theorem forall₂_mem_left {α β : Type} {R : α → β → Prop} :
    ∀ {ps : List α} {gs : List β}, List.Forall₂ R ps gs →
      ∀ p ∈ ps, ∃ u ∈ gs, R p u := by
  intro ps gs h
  induction h with
  | nil => intro p hp; exact absurd hp (List.not_mem_nil p)
  | cons hR h ih =>
    intro p hp
    rcases List.mem_cons.mp hp with rfl | hp
    · exact ⟨_, by simp, hR⟩
    · obtain ⟨u, hu, hRu⟩ := ih p hp
      exact ⟨u, by simp [hu], hRu⟩

theorem specmem_to_sub : ∀ {groups : List (Nat × List Nat)} {ps : List (List Nat)},
    List.Forall₂ (fun p u => p.length = u.1 ∧ ∀ m ∈ p, m ∈ u.2) ps groups →
    (∀ p ∈ ps, p.Nodup) →
    ∃ ps2, List.Forall₂ (fun p u => p.length = u.1 ∧ p <+ u.2) ps2 groups ∧
      List.Forall₂ (fun a b => a ~ b) ps2 ps := by
  intro groups
  induction groups with
  | nil =>
    intro ps hf _
    cases hf
    exact ⟨[], List.Forall₂.nil, List.Forall₂.nil⟩
  | cons u groups ih =>
    intro ps hf hnd
    cases hf with
    | cons hR hrest =>
      rename_i p ps1
      have hsp : p <+~ u.2 := (hnd p (by simp)).subperm fun m hm => hR.2 m hm
      obtain ⟨p2, hp2perm, hp2sub⟩ := hsp
      obtain ⟨ps2, h1, h2⟩ := ih hrest fun x hx => hnd x (by simp [hx])
      exact ⟨p2 :: ps2,
        List.Forall₂.cons ⟨by rw [hp2perm.length_eq]; exact hR.1, hp2sub⟩ h1,
        List.Forall₂.cons hp2perm h2⟩

theorem specTail_top_iff {g cnt : Nat} {masks : List Nat} {rest : List (Nat × List Nat)}
    (hnz : ∀ u ∈ (cnt, masks) :: rest, ∀ m ∈ u.2, m ≠ 0) :
    SpecTail g 0 cnt masks rest ↔ SpecMem g ((cnt, masks) :: rest) := by
  constructor
  · rintro ⟨p, ps, hlen, hsub, hpick, hok⟩
    have hsub2 : p <+ masks := by simpa [List.drop_zero] using hsub
    have hmemrest : ∀ {rest2 : List (Nat × List Nat)} {ps2 : List (List Nat)},
        GroupPick rest2 ps2 →
        List.Forall₂ (fun p u => p.length = u.1 ∧ ∀ m ∈ p, m ∈ u.2) ps2 rest2 := by
      intro rest2 ps2 h
      induction h with
      | nil => exact List.Forall₂.nil
      | cons hR h ih => exact List.Forall₂.cons ⟨hR.1, fun m hm => hR.2.subset hm⟩ ih
    exact ⟨p :: ps,
      List.Forall₂.cons ⟨hlen, fun m hm => hsub2.subset hm⟩ (hmemrest hpick),
      by simpa using hok⟩
  · rintro ⟨ps, hf, hok⟩
    have hnd : ∀ p ∈ ps, p.Nodup := by
      intro p hp
      have hpw : p.Pairwise disjZ := (List.pairwise_flatten.mp hok.2).1 p hp
      obtain ⟨u, hu, hRu⟩ := forall₂_mem_left hf p hp
      refine hpw.imp_of_mem ?_
      intro a b ha _ hab heq
      subst heq
      have h0 : a = 0 := by
        have := land_self_eq a
        rw [hab] at this
        exact this.symm
      exact hnz u hu a (hRu.2 a ha) h0
    obtain ⟨ps2, hf2, hperm⟩ := specmem_to_sub hf hnd
    cases hf2 with
    | cons hR hrest =>
      rename_i p2 ps3
      refine ⟨p2, ps3, hR.1, by simpa [List.drop_zero] using hR.2, hrest, ?_⟩
      have hflat : (p2 :: ps3).flatten ~ ps.flatten := flatten_perm_of_forall₂ hperm
      have := (OKext_perm hflat).mpr hok
      simpa using this

theorem forall₂_mem_replicate {ms : List Nat} : ∀ {pr : List Nat} {c : Nat},
    List.Forall₂ (fun m l => m ∈ l) pr (List.replicate c ms) ↔
      (pr.length = c ∧ ∀ m ∈ pr, m ∈ ms) := by
  intro pr
  induction pr with
  | nil =>
    intro c
    cases c with
    | zero => simp [List.replicate]
    | succ c =>
      rw [List.replicate]
      constructor
      · intro h; cases h
      · rintro ⟨h, -⟩; simp at h
  | cons m pr ih =>
    intro c
    cases c with
    | zero =>
      rw [List.replicate]
      constructor
      · intro h; cases h
      · rintro ⟨h, -⟩; simp at h
    | succ c =>
      rw [List.replicate]
      constructor
      · intro h
        cases h with
        | cons h1 h2 =>
          obtain ⟨hl, hm⟩ := ih.mp h2
          refine ⟨by simp [hl], ?_⟩
          intro x hx
          rcases List.mem_cons.mp hx with rfl | hx
          · exact h1
          · exact hm x hx
      · rintro ⟨hl, hm⟩
        refine List.Forall₂.cons (hm m (by simp)) (ih.mpr ⟨by simpa using hl, ?_⟩)
        intro x hx
        exact hm x (by simp [hx])

theorem forall₂_flat_of_groups : ∀ {groups : List (Nat × List Nat)}
    {ps : List (List Nat)},
    List.Forall₂ (fun p u => p.length = u.1 ∧ ∀ m ∈ p, m ∈ u.2) ps groups →
    List.Forall₂ (fun m l => m ∈ l) ps.flatten
      (groups.flatMap fun u => List.replicate u.1 u.2) := by
  intro groups ps h
  induction h with
  | nil => exact List.Forall₂.nil
  | cons hR h ih =>
    rw [List.flatten_cons, List.flatMap_cons]
    exact forall₂_append_both (forall₂_mem_replicate.mpr hR) ih

theorem groups_of_forall₂_flat : ∀ (groups : List (Nat × List Nat))
    {chosen : List Nat},
    List.Forall₂ (fun m l => m ∈ l) chosen
      (groups.flatMap fun u => List.replicate u.1 u.2) →
    ∃ ps, List.Forall₂ (fun p u => p.length = u.1 ∧ ∀ m ∈ p, m ∈ u.2) ps groups ∧
      ps.flatten = chosen := by
  intro groups
  induction groups with
  | nil =>
    intro chosen h
    cases h
    exact ⟨[], List.Forall₂.nil, rfl⟩
  | cons u groups ih =>
    intro chosen h
    rw [List.flatMap_cons] at h
    have h1 := List.forall₂_take_append _ _ _ h
    have h2 := List.forall₂_drop_append _ _ _ h
    obtain ⟨ps, hf, hfl⟩ := ih h2
    refine ⟨chosen.take (List.replicate u.1 u.2).length :: ps,
      List.Forall₂.cons (forall₂_mem_replicate.mp h1) hf, ?_⟩
    rw [List.flatten_cons, hfl]
    exact List.take_append_drop _ chosen

theorem SpecMem_iff_SpecFlat (g : Nat) (groups : List (Nat × List Nat)) :
    SpecMem g groups ↔
      SpecFlat g (groups.flatMap fun u => List.replicate u.1 u.2) := by
  constructor
  · rintro ⟨ps, hf, hok⟩
    exact ⟨ps.flatten, forall₂_flat_of_groups hf, hok⟩
  · rintro ⟨chosen, hf, hok⟩
    obtain ⟨ps, hf2, hfl⟩ := groups_of_forall₂_flat groups hf
    exact ⟨ps, hf2, by rw [hfl]; exact hok⟩

theorem SpecFlat_nil (g : Nat) : SpecFlat g [] :=
  ⟨[], List.Forall₂.nil, OKext_nil g⟩

theorem SpecFlat_cons {g : Nat} {ms : List Nat} {ls : List (List Nat)} :
    SpecFlat g (ms :: ls) ↔ ∃ m ∈ ms, g &&& m = 0 ∧ SpecFlat (g ||| m) ls := by
  constructor
  · rintro ⟨chosen, hf, hok⟩
    cases hf with
    | cons h1 h2 =>
      rename_i m c
      have h3 := OKext_cons.mp hok
      exact ⟨m, h1, h3.1, c, h2, h3.2⟩
  · rintro ⟨m, hm, hdisj, c, hf, hok⟩
    exact ⟨m :: c, List.Forall₂.cons hm hf, OKext_cons.mpr ⟨hdisj, hok⟩⟩

theorem SpecFlat_perm : ∀ {ls ls2 : List (List Nat)}, ls ~ ls2 →
    ∀ g, (SpecFlat g ls ↔ SpecFlat g ls2) := by
  intro ls ls2 h
  induction h with
  | nil => intro g; exact Iff.rfl
  | cons x h ih =>
    intro g
    rw [SpecFlat_cons, SpecFlat_cons]
    exact exists_congr fun m => and_congr_right fun _ => and_congr_right fun _ => ih _
  | swap x y l =>
    have key : ∀ (g0 : Nat) (a b : List Nat), SpecFlat g0 (a :: b :: l) →
        SpecFlat g0 (b :: a :: l) := by
      intro g0 a b hS
      rw [SpecFlat_cons] at hS
      obtain ⟨m, hm, h1, hS⟩ := hS
      rw [SpecFlat_cons] at hS
      obtain ⟨m2, hm2, h2, hS⟩ := hS
      have h2s := lor_land_eq_zero.mp h2
      rw [SpecFlat_cons]
      refine ⟨m2, hm2, h2s.1, ?_⟩
      rw [SpecFlat_cons]
      refine ⟨m, hm, lor_land_eq_zero.mpr ⟨h1, land_zero_comm h2s.2⟩, ?_⟩
      have heq : g0 ||| m ||| m2 = g0 ||| m2 ||| m := by
        rw [Nat.lor_assoc, Nat.lor_assoc, Nat.lor_comm m m2]
      rwa [heq] at hS
    exact fun g => ⟨key g y x, key g x y⟩
  | trans h12 h23 ih12 ih23 =>
    intro g
    exact (ih12 g).trans (ih23 g)

theorem brute_iff : ∀ (ls : List (List Nat)) (g : Nat),
    brute g ls = true ↔ SpecFlat g ls := by
  intro ls
  induction ls with
  | nil =>
    intro g
    rw [brute]
    exact ⟨fun _ => SpecFlat_nil g, fun _ => rfl⟩
  | cons ms ls ih =>
    intro g
    rw [brute, List.any_eq_true, SpecFlat_cons]
    constructor
    · rintro ⟨m, hm, hc⟩
      rw [Bool.and_eq_true, decide_eq_true_eq] at hc
      exact ⟨m, hm, hc.1, (ih _).mp hc.2⟩
    · rintro ⟨m, hm, h1, h2⟩
      refine ⟨m, hm, ?_⟩
      rw [Bool.and_eq_true, decide_eq_true_eq]
      exact ⟨h1, (ih _).mpr h2⟩

/-! ### Pipeline facts about active types and the type-mask table -/

theorem forall₂_mem_right {α β : Type} {R : α → β → Prop} :
    ∀ {ps : List α} {gs : List β}, List.Forall₂ R ps gs →
      ∀ u ∈ gs, ∃ pr ∈ ps, R pr u := by
  intro ps gs h
  induction h with
  | nil => intro u hu; exact absurd hu (List.not_mem_nil u)
  | cons hR h ih =>
    intro u hu
    rcases List.mem_cons.mp hu with rfl | hu
    · exact ⟨_, by simp, hR⟩
    · obtain ⟨pr, hpr, hRu⟩ := ih u hu
      exact ⟨pr, by simp [hpr], hRu⟩

theorem activeOf_mem_spec {counts : List Nat} {sc : Nat × Nat} (h : sc ∈ activeOf counts) :
    sc.1 < counts.length ∧ counts.getD sc.1 0 = sc.2 ∧ 0 < sc.2 := by
  rw [activeOf] at h
  obtain ⟨a, ha, hfa⟩ := List.mem_filterMap.mp h
  by_cases hp : 0 < counts.getD a 0
  · rw [if_pos hp] at hfa
    cases hfa
    exact ⟨List.mem_range.mp ha, rfl, hp⟩
  · rw [if_neg hp] at hfa
    cases hfa

theorem mem_activeOf {counts : List Nat} {s : Nat} (hs : s < counts.length)
    (hpos : 0 < counts.getD s 0) : (s, counts.getD s 0) ∈ activeOf counts := by
  rw [activeOf]
  exact List.mem_filterMap.mpr ⟨s, List.mem_range.mpr hs, by rw [if_pos hpos]⟩

theorem buildTypeMasks_some (w h : Nat) (ao : List (List (List Cell))) :
    ∀ (l : List (Nat × Nat)) (tms : List (Nat × Nat × List Nat)),
      buildTypeMasks w h ao l = some tms →
      tms = l.map fun sc => (sc.1, sc.2, genMasks w h (ao.getD sc.1 [])) := by
  intro l
  induction l with
  | nil =>
    intro tms htms
    rw [buildTypeMasks] at htms
    cases htms
    rfl
  | cons sc rest ih =>
    obtain ⟨s, cnt⟩ := sc
    intro tms htms
    rw [buildTypeMasks] at htms
    by_cases hlt : (genMasks w h (ao.getD s [])).length < cnt
    · rw [if_pos hlt] at htms
      cases htms
    · rw [if_neg hlt] at htms
      cases hrec : buildTypeMasks w h ao rest with
      | none => rw [hrec] at htms; cases htms
      | some tms1 =>
        rw [hrec, Option.map_some'] at htms
        cases htms
        rw [List.map_cons]
        rw [← ih tms1 hrec]

theorem buildTypeMasks_none_ex (w h : Nat) (ao : List (List (List Cell))) :
    ∀ (l : List (Nat × Nat)), buildTypeMasks w h ao l = none →
      ∃ sc ∈ l, (genMasks w h (ao.getD sc.1 [])).length < sc.2 := by
  intro l
  induction l with
  | nil =>
    intro htms
    rw [buildTypeMasks] at htms
    cases htms
  | cons sc rest ih =>
    obtain ⟨s, cnt⟩ := sc
    intro htms
    rw [buildTypeMasks] at htms
    by_cases hlt : (genMasks w h (ao.getD s [])).length < cnt
    · exact ⟨(s, cnt), by simp, hlt⟩
    · rw [if_neg hlt] at htms
      cases hrec : buildTypeMasks w h ao rest with
      | none =>
        obtain ⟨sc2, hsc2, hfail⟩ := ih hrec
        exact ⟨sc2, by simp [hsc2], hfail⟩
      | some tms1 => rw [hrec, Option.map_some'] at htms; cases htms

theorem buildTypeMasks_none_of (w h : Nat) (ao : List (List (List Cell))) :
    ∀ (l : List (Nat × Nat)) (sc : Nat × Nat), sc ∈ l →
      (genMasks w h (ao.getD sc.1 [])).length < sc.2 →
      buildTypeMasks w h ao l = none := by
  intro l
  induction l with
  | nil => intro sc hsc; exact absurd hsc (List.not_mem_nil sc)
  | cons u rest ih =>
    obtain ⟨s, cnt⟩ := u
    intro sc hsc hlt
    rw [buildTypeMasks]
    by_cases hu : (genMasks w h (ao.getD s [])).length < cnt
    · rw [if_pos hu]
    · rw [if_neg hu]
      rcases List.mem_cons.mp hsc with rfl | hsc
      · exact absurd hlt hu
      · rw [ih sc hsc hlt, Option.map_none']

theorem foldl_or_ne_zero {f : Cell → Nat} :
    ∀ (l : List Cell) (a : Nat), a ≠ 0 →
      l.foldl (fun mask p => mask ||| f p) a ≠ 0 := by
  intro l
  induction l with
  | nil => intro a ha; exact ha
  | cons p rest ih =>
    intro a ha
    rw [List.foldl_cons]
    refine ih (a ||| f p) fun hz => ?_
    exact ha (lor_eq_zero.mp hz).1

theorem maskOfCells_ne_zero {w dr dc : Nat} {o : List Cell} (ho : o ≠ []) :
    maskOfCells w dr dc o ≠ 0 := by
  cases o with
  | nil => exact absurd rfl ho
  | cons p rest =>
    rw [maskOfCells, List.foldl_cons]
    apply foldl_or_ne_zero
    rw [Nat.zero_or, Nat.one_shiftLeft]
    exact Nat.pos_iff_ne_zero.mp (Nat.pow_pos (by omega))

theorem orientPlacements_mem {w h : Nat} {orient : List Cell} {m : Nat}
    (hm : m ∈ orientPlacements w h orient) :
    ∃ dr dc, m = maskOfCells w dr dc orient := by
  rw [orientPlacements] at hm
  by_cases hbb : (h : Int) ≤ maxFst orient ∨ (w : Int) ≤ maxSnd orient
  · rw [if_pos hbb] at hm
    exact absurd hm (List.not_mem_nil m)
  · rw [if_neg hbb] at hm
    obtain ⟨dr, _, hdr⟩ := List.mem_flatMap.mp hm
    obtain ⟨dc, _, hdc⟩ := List.mem_map.mp hdr
    exact ⟨dr, dc, hdc.symm⟩

theorem genMasks_nonzero {w h : Nat} {orients : List (List Cell)}
    (hne : ∀ o ∈ orients, o ≠ []) :
    ∀ m ∈ genMasks w h orients, m ≠ 0 := by
  intro m hm
  rw [genMasks] at hm
  obtain ⟨o, ho, hmo⟩ := List.mem_flatMap.mp hm
  obtain ⟨dr, dc, rfl⟩ := orientPlacements_mem hmo
  exact maskOfCells_ne_zero (hne o ho)

theorem instMasksOf_map (w h : Nat) (ao : List (List (List Cell)))
    (l : List (Nat × Nat)) :
    instMasksOf (l.map fun sc => (sc.1, sc.2, genMasks w h (ao.getD sc.1 [])))
      = l.flatMap fun sc => List.replicate sc.2 (genMasks w h (ao.getD sc.1 [])) := by
  rw [instMasksOf, List.flatMap_map]

theorem flat_groupsOf (tms : List (Nat × Nat × List Nat)) :
    ((groupsOf tms).flatMap fun u => List.replicate u.1 u.2) = instMasksOf tms := by
  rw [groupsOf, instMasksOf, List.flatMap_map]

/-! ### The solver agrees with the brute force -/

theorem solve_eq_brute (w h : Nat) (counts : List Nat) (ao : List (List (List Cell)))
    (shapes : List (List Cell))
    (hnz : ∀ sc ∈ activeOf counts, ∀ m ∈ genMasks w h (ao.getD sc.1 []), m ≠ 0)
    (harea : w * h < totalCellsOf counts shapes →
      ¬ SpecFlat 0 ((activeOf counts).flatMap fun sc =>
        List.replicate sc.2 (genMasks w h (ao.getD sc.1 [])))) :
    solve_region w h counts ao shapes = bruteForceSolve w h counts ao := by
  rw [solve_region, bruteForceSolve]
  by_cases ha : w * h < totalCellsOf counts shapes
  · rw [if_pos ha]
    have hb : ¬ (brute 0 ((activeOf counts).flatMap fun sc =>
        List.replicate sc.2 (genMasks w h (ao.getD sc.1 []))) = true) := by
      rw [brute_iff]
      exact harea ha
    cases hbv : brute 0 ((activeOf counts).flatMap fun sc =>
        List.replicate sc.2 (genMasks w h (ao.getD sc.1 []))) with
    | false => rfl
    | true => exact absurd hbv hb
  · rw [if_neg ha]
    by_cases hact : activeOf counts = []
    · rw [if_pos hact, hact]
      rfl
    · rw [if_neg hact]
      cases hbtm : buildTypeMasks w h ao (activeOf counts) with
      | none =>
        obtain ⟨sc, hsc, hfail⟩ := buildTypeMasks_none_ex w h ao _ hbtm
        have hnb : ¬ SpecFlat 0 ((activeOf counts).flatMap fun sc =>
            List.replicate sc.2 (genMasks w h (ao.getD sc.1 []))) := by
          intro hS
          have hflat : ((activeOf counts).map fun sc =>
              ((sc.2 : Nat), genMasks w h (ao.getD sc.1 []))).flatMap
                (fun u => List.replicate u.1 u.2)
              = (activeOf counts).flatMap fun sc =>
                List.replicate sc.2 (genMasks w h (ao.getD sc.1 [])) := by
            rw [List.flatMap_map]
          rw [← hflat] at hS
          have hmem := (SpecMem_iff_SpecFlat 0 _).mpr hS
          obtain ⟨ps, hf, hok⟩ := hmem
          obtain ⟨pr, hpr, hlen, hmemm⟩ := forall₂_mem_right hf
            (sc.2, genMasks w h (ao.getD sc.1 []))
            (List.mem_map.mpr ⟨sc, hsc, rfl⟩)
          have hnd : pr.Nodup := by
            have hpw : pr.Pairwise disjZ := (List.pairwise_flatten.mp hok.2).1 pr hpr
            refine hpw.imp_of_mem ?_
            intro a b haa _ hab heq
            subst heq
            have h0 : a = 0 := by
              have h1 := land_self_eq a
              rw [hab] at h1
              exact h1.symm
            exact hnz sc hsc a (hmemm a haa) h0
          have hsub : pr <+~ genMasks w h (ao.getD sc.1 []) :=
            hnd.subperm fun m hm => hmemm m hm
          have := hsub.length_le
          omega
        have hbv : brute 0 ((activeOf counts).flatMap fun sc =>
            List.replicate sc.2 (genMasks w h (ao.getD sc.1 []))) = false := by
          cases hb2 : brute 0 ((activeOf counts).flatMap fun sc =>
              List.replicate sc.2 (genMasks w h (ao.getD sc.1 []))) with
          | false => rfl
          | true => exact absurd ((brute_iff _ _).mp hb2) hnb
        rw [hbv]
      | some tms0 =>
        have htms0 := buildTypeMasks_some w h ao _ tms0 hbtm
        have hperm : insertionSort lenLe tms0 ~ tms0 := perm_insertionSort lenLe tms0
        have hcnt : ∀ u ∈ insertionSort lenLe tms0, 1 ≤ u.2.1 := by
          intro u hu
          have hu0 : u ∈ tms0 := hperm.mem_iff.mp hu
          rw [htms0] at hu0
          obtain ⟨sc, hsc, rfl⟩ := List.mem_map.mp hu0
          exact (activeOf_mem_spec hsc).2.2
        have hne : insertionSort lenLe tms0 ≠ [] := by
          intro hnil
          rw [hnil] at hperm
          have h0 : tms0 = [] := hperm.symm.eq_nil
          rw [htms0] at h0
          exact hact (List.map_eq_nil_iff.mp h0)
        obtain ⟨t, rest, htr⟩ : ∃ t rest, insertionSort lenLe tms0 = t :: rest := by
          cases hsort : insertionSort lenLe tms0 with
          | nil => exact absurd hsort hne
          | cons t rest => exact ⟨t, rest, rfl⟩
        show (runLoop (ctxOf (insertionSort lenLe tms0))
            (measureOf (ctxOf (insertionSort lenLe tms0))
              (initState (ctxOf (insertionSort lenLe tms0)).n) + 1)
            (initState (ctxOf (insertionSort lenLe tms0)).n)).getD false
          = brute 0 ((activeOf counts).flatMap fun sc =>
              List.replicate sc.2 (genMasks w h (ao.getD sc.1 [])))
        rw [solve_loop_eq_dfs]
        have hcnt2 : ∀ u ∈ t :: rest, 1 ≤ u.2.1 := by
          rw [← htr]
          exact hcnt
        have hnz2 : ∀ u ∈ (t.2.1, t.2.2) :: groupsOf rest, ∀ m ∈ u.2, m ≠ 0 := by
          rw [← groupsOf_cons, ← htr]
          intro u hu
          rw [groupsOf] at hu
          obtain ⟨x, hx, rfl⟩ := List.mem_map.mp hu
          have hx0 : x ∈ tms0 := hperm.mem_iff.mp hx
          rw [htms0] at hx0
          obtain ⟨sc, hsc, rfl⟩ := List.mem_map.mp hx0
          intro m hm
          exact hnz sc hsc m hm
        have hpflat : instMasksOf (insertionSort lenLe tms0)
            ~ (activeOf counts).flatMap fun sc =>
                List.replicate sc.2 (genMasks w h (ao.getD sc.1 [])) := by
          have h1 : instMasksOf (insertionSort lenLe tms0) ~ instMasksOf tms0 :=
            hperm.flatMap_right _
          have h2 : instMasksOf tms0 = (activeOf counts).flatMap fun sc =>
              List.replicate sc.2 (genMasks w h (ao.getD sc.1 [])) := by
            rw [htms0, instMasksOf_map]
          exact h2 ▸ h1
        rw [Bool.eq_iff_iff]
        rw [htr]
        rw [dfsFrom_zero_eq t rest hcnt2]
        rw [dfsG_iff]
        rw [brute_iff]
        rw [specTail_top_iff hnz2]
        rw [← groupsOf_cons]
        rw [SpecMem_iff_SpecFlat]
        rw [flat_groupsOf]
        rw [← htr]
        exact SpecFlat_perm hpflat 0

/-! ### Part G: canonical cell lists and orientations -/

theorem canonCells_mem {cells : List Cell} {x : Cell} : x ∈ canonCells cells ↔ x ∈ cells :=
  ((perm_insertionSort cellLe cells.dedup).mem_iff).trans List.mem_dedup

theorem canonCells_nodup (cells : List Cell) : (canonCells cells).Nodup :=
  ((perm_insertionSort cellLe cells.dedup).nodup_iff).mpr (List.nodup_dedup cells)

theorem canonCells_eq_of_mem_iff {a b : List Cell} (h : ∀ x, x ∈ a ↔ x ∈ b) :
    canonCells a = canonCells b := by
  refine List.eq_of_perm_of_sorted ?_ (List.sorted_insertionSort cellLe a.dedup)
    (List.sorted_insertionSort cellLe b.dedup)
  calc insertionSort cellLe a.dedup ~ a.dedup := perm_insertionSort _ _
    _ ~ b.dedup := (List.perm_ext_iff_of_nodup (List.nodup_dedup a) (List.nodup_dedup b)).mpr
        (fun x => List.mem_dedup.trans ((h x).trans List.mem_dedup.symm))
    _ ~ insertionSort cellLe b.dedup := (perm_insertionSort _ _).symm

theorem canonCells_idem (cells : List Cell) : canonCells (canonCells cells) = canonCells cells :=
  canonCells_eq_of_mem_iff fun _ => canonCells_mem

theorem canonCells_length {cells : List Cell} (h : cells.Nodup) :
    (canonCells cells).length = cells.length := by
  rw [canonCells, (perm_insertionSort cellLe cells.dedup).length_eq, List.dedup_eq_self.mpr h]

theorem foldl_min_le_init (f : Cell → Int) (l : List Cell) :
    ∀ a : Int, l.foldl (fun b q => min b (f q)) a ≤ a := by
  induction l with
  | nil => intro a; exact le_refl a
  | cons p rest ih =>
    intro a
    rw [List.foldl_cons]
    exact le_trans (ih (min a (f p))) (min_le_left _ _)

theorem foldl_min_le_mem (f : Cell → Int) (l : List Cell) :
    ∀ (a : Int) (x : Cell), x ∈ l → l.foldl (fun b q => min b (f q)) a ≤ f x := by
  induction l with
  | nil => intro a x hx; exact absurd hx (List.not_mem_nil x)
  | cons p rest ih =>
    intro a x hx
    rw [List.foldl_cons]
    rcases List.mem_cons.mp hx with rfl | hx
    · exact le_trans (foldl_min_le_init f rest _) (min_le_right _ _)
    · exact ih _ x hx

theorem foldl_min_attained (f : Cell → Int) (l : List Cell) :
    ∀ a : Int, l.foldl (fun b q => min b (f q)) a = a ∨
      ∃ x ∈ l, l.foldl (fun b q => min b (f q)) a = f x := by
  induction l with
  | nil => intro a; exact Or.inl rfl
  | cons p rest ih =>
    intro a
    rw [List.foldl_cons]
    rcases ih (min a (f p)) with h | ⟨x, hx, hfx⟩
    · rw [h]
      rcases min_cases a (f p) with ⟨heq, -⟩ | ⟨heq, -⟩
      · exact Or.inl heq
      · exact Or.inr ⟨p, List.mem_cons_self p rest, heq⟩
    · exact Or.inr ⟨x, List.mem_cons_of_mem p hx, hfx⟩

theorem foldl_max_ge_init (f : Cell → Int) (l : List Cell) :
    ∀ a : Int, a ≤ l.foldl (fun b q => max b (f q)) a := by
  induction l with
  | nil => intro a; exact le_refl a
  | cons p rest ih =>
    intro a
    rw [List.foldl_cons]
    exact le_trans (le_max_left _ _) (ih (max a (f p)))

theorem foldl_max_ge_mem (f : Cell → Int) (l : List Cell) :
    ∀ (a : Int) (x : Cell), x ∈ l → f x ≤ l.foldl (fun b q => max b (f q)) a := by
  induction l with
  | nil => intro a x hx; exact absurd hx (List.not_mem_nil x)
  | cons p rest ih =>
    intro a x hx
    rw [List.foldl_cons]
    rcases List.mem_cons.mp hx with rfl | hx
    · exact le_trans (le_max_right _ _) (foldl_max_ge_init f rest _)
    · exact ih _ x hx

theorem minFst_le {cells : List Cell} {x : Cell} (hx : x ∈ cells) : minFst cells ≤ x.1 := by
  cases cells with
  | nil => exact absurd hx (List.not_mem_nil x)
  | cons p rest =>
    rw [minFst]
    rcases List.mem_cons.mp hx with rfl | hx
    · exact foldl_min_le_init (fun q => q.1) rest _
    · exact foldl_min_le_mem (fun q => q.1) rest _ x hx

theorem minSnd_le {cells : List Cell} {x : Cell} (hx : x ∈ cells) : minSnd cells ≤ x.2 := by
  cases cells with
  | nil => exact absurd hx (List.not_mem_nil x)
  | cons p rest =>
    rw [minSnd]
    rcases List.mem_cons.mp hx with rfl | hx
    · exact foldl_min_le_init (fun q => q.2) rest _
    · exact foldl_min_le_mem (fun q => q.2) rest _ x hx

theorem le_maxFst {cells : List Cell} {x : Cell} (hx : x ∈ cells) : x.1 ≤ maxFst cells := by
  cases cells with
  | nil => exact absurd hx (List.not_mem_nil x)
  | cons p rest =>
    rw [maxFst]
    rcases List.mem_cons.mp hx with rfl | hx
    · exact foldl_max_ge_init (fun q => q.1) rest _
    · exact foldl_max_ge_mem (fun q => q.1) rest _ x hx

theorem le_maxSnd {cells : List Cell} {x : Cell} (hx : x ∈ cells) : x.2 ≤ maxSnd cells := by
  cases cells with
  | nil => exact absurd hx (List.not_mem_nil x)
  | cons p rest =>
    rw [maxSnd]
    rcases List.mem_cons.mp hx with rfl | hx
    · exact foldl_max_ge_init (fun q => q.2) rest _
    · exact foldl_max_ge_mem (fun q => q.2) rest _ x hx

theorem minFst_attained {cells : List Cell} (h : cells ≠ []) :
    ∃ x ∈ cells, x.1 = minFst cells := by
  cases cells with
  | nil => exact absurd rfl h
  | cons p rest =>
    rw [minFst]
    rcases foldl_min_attained (fun q => q.1) rest p.1 with heq | ⟨x, hx, heq⟩
    · exact ⟨p, List.mem_cons_self p rest, heq.symm⟩
    · exact ⟨x, List.mem_cons_of_mem p hx, heq.symm⟩

theorem minSnd_attained {cells : List Cell} (h : cells ≠ []) :
    ∃ x ∈ cells, x.2 = minSnd cells := by
  cases cells with
  | nil => exact absurd rfl h
  | cons p rest =>
    rw [minSnd]
    rcases foldl_min_attained (fun q => q.2) rest p.2 with heq | ⟨x, hx, heq⟩
    · exact ⟨p, List.mem_cons_self p rest, heq.symm⟩
    · exact ⟨x, List.mem_cons_of_mem p hx, heq.symm⟩

theorem normalize_mem {cells : List Cell} {x : Cell} :
    x ∈ normalizeCells cells ↔
      ∃ y ∈ cells, x = (y.1 - minFst cells, y.2 - minSnd cells) := by
  rw [normalizeCells, List.mem_map]
  constructor
  · rintro ⟨y, hy, rfl⟩; exact ⟨y, hy, rfl⟩
  · rintro ⟨y, hy, rfl⟩; exact ⟨y, hy, rfl⟩

theorem normalize_nonneg {cells : List Cell} {x : Cell} (hx : x ∈ normalizeCells cells) :
    0 ≤ x.1 ∧ 0 ≤ x.2 := by
  obtain ⟨y, hy, rfl⟩ := normalize_mem.mp hx
  have h1 := minFst_le hy
  have h2 := minSnd_le hy
  constructor
  · show (0 : Int) ≤ y.1 - minFst cells; omega
  · show (0 : Int) ≤ y.2 - minSnd cells; omega

theorem normalize_ne_nil {cells : List Cell} (h : cells ≠ []) : normalizeCells cells ≠ [] := by
  rw [normalizeCells]
  intro hc
  exact h (List.map_eq_nil_iff.mp hc)

theorem normalize_row_zero {cells : List Cell} (h : cells ≠ []) :
    ∃ x ∈ normalizeCells cells, x.1 = 0 := by
  obtain ⟨y, hy, hval⟩ := minFst_attained h
  refine ⟨(y.1 - minFst cells, y.2 - minSnd cells), normalize_mem.mpr ⟨y, hy, rfl⟩, ?_⟩
  show y.1 - minFst cells = 0
  omega

theorem normalize_col_zero {cells : List Cell} (h : cells ≠ []) :
    ∃ x ∈ normalizeCells cells, x.2 = 0 := by
  obtain ⟨y, hy, hval⟩ := minSnd_attained h
  refine ⟨(y.1 - minFst cells, y.2 - minSnd cells), normalize_mem.mpr ⟨y, hy, rfl⟩, ?_⟩
  show y.2 - minSnd cells = 0
  omega

theorem normalize_nodup {cells : List Cell} (h : cells.Nodup) :
    (normalizeCells cells).Nodup := by
  rw [normalizeCells]
  refine h.map ?_
  intro a b hab
  have h1 : a.1 - minFst cells = b.1 - minFst cells := congrArg Prod.fst hab
  have h2 : a.2 - minSnd cells = b.2 - minSnd cells := congrArg Prod.snd hab
  exact Prod.ext (by omega) (by omega)

theorem normalize_length (cells : List Cell) :
    (normalizeCells cells).length = cells.length := by
  rw [normalizeCells, List.length_map]

theorem rotCell_inj (k : Nat) : Function.Injective (rotCell k) := by
  induction k with
  | zero => exact fun a b h => h
  | succ k ih =>
    intro a b h
    have h2 : ((a.2, -a.1) : Cell) = (b.2, -b.1) := ih h
    have h21 : a.2 = b.2 := congrArg Prod.fst h2
    have h22 : -a.1 = -b.1 := congrArg Prod.snd h2
    exact Prod.ext (by omega) h21

theorem transformCell_inj (fl : Bool) (rot : Nat) : Function.Injective (transformCell fl rot) := by
  intro a b h
  have h2 := rotCell_inj rot h
  rw [Prod.mk.injEq] at h2
  obtain ⟨h21, h22⟩ := h2
  cases fl with
  | false => exact Prod.ext h21 (by simpa using h22)
  | true =>
    simp only [if_pos] at h22
    exact Prod.ext h21 (by omega)

theorem orientationOf_mem {shape : List Cell} {fl : Bool} {rot : Nat} {x : Cell} :
    x ∈ orientationOf shape fl rot ↔
      x ∈ normalizeCells (shape.map (transformCell fl rot)) :=
  canonCells_mem

theorem orientationOf_nodup (shape : List Cell) (fl : Bool) (rot : Nat) :
    (orientationOf shape fl rot).Nodup :=
  canonCells_nodup _

theorem orientationOf_ne_nil {shape : List Cell} (h : shape ≠ []) (fl : Bool) (rot : Nat) :
    orientationOf shape fl rot ≠ [] := by
  have h1 : shape.map (transformCell fl rot) ≠ [] := by
    intro hc; exact h (List.map_eq_nil_iff.mp hc)
  have h2 := normalize_ne_nil h1
  cases hc : normalizeCells (shape.map (transformCell fl rot)) with
  | nil => exact absurd hc h2
  | cons y ys =>
    have hy : y ∈ orientationOf shape fl rot := by
      rw [orientationOf]
      exact canonCells_mem.mpr (by rw [hc]; exact List.mem_cons_self y ys)
    exact List.ne_nil_of_mem hy

theorem orientationOf_nonneg {shape : List Cell} {fl : Bool} {rot : Nat} {p : Cell}
    (hp : p ∈ orientationOf shape fl rot) : 0 ≤ p.1 ∧ 0 ≤ p.2 :=
  normalize_nonneg (orientationOf_mem.mp hp)

theorem orientationOf_length {shape : List Cell} (hnd : shape.Nodup) (fl : Bool) (rot : Nat) :
    (orientationOf shape fl rot).length = shape.length := by
  rw [orientationOf]
  have h1 : (shape.map (transformCell fl rot)).Nodup := hnd.map (transformCell_inj fl rot)
  rw [canonCells_length (normalize_nodup h1), normalize_length, List.length_map]

theorem orientationOf_row_zero {shape : List Cell} (h : shape ≠ []) (fl : Bool) (rot : Nat) :
    ∃ p ∈ orientationOf shape fl rot, p.1 = 0 := by
  have h1 : shape.map (transformCell fl rot) ≠ [] := by
    intro hc; exact h (List.map_eq_nil_iff.mp hc)
  obtain ⟨x, hx, hx0⟩ := normalize_row_zero h1
  exact ⟨x, orientationOf_mem.mpr hx, hx0⟩

theorem orientationOf_col_zero {shape : List Cell} (h : shape ≠ []) (fl : Bool) (rot : Nat) :
    ∃ p ∈ orientationOf shape fl rot, p.2 = 0 := by
  have h1 : shape.map (transformCell fl rot) ≠ [] := by
    intro hc; exact h (List.map_eq_nil_iff.mp hc)
  obtain ⟨x, hx, hx0⟩ := normalize_col_zero h1
  exact ⟨x, orientationOf_mem.mpr hx, hx0⟩

theorem orientationOf_canon (shape : List Cell) (fl : Bool) (rot : Nat) :
    canonCells (orientationOf shape fl rot) = orientationOf shape fl rot :=
  canonCells_idem _

theorem fuo_eq_fold (shape : List Cell) :
    find_unique_orientations shape = flipRots.foldl (fuoStep shape) [] := rfl

theorem fuoStep_fold_mem_mono (shape : List Cell) (frs : List (Bool × Nat)) :
    ∀ (acc : List (List Cell)) (x : List Cell), x ∈ acc →
      x ∈ frs.foldl (fuoStep shape) acc := by
  induction frs with
  | nil => intro acc x hx; exact hx
  | cons fr rest ih =>
    intro acc x hx
    rw [List.foldl_cons]
    refine ih _ x ?_
    rw [fuoStep]
    split
    · exact hx
    · exact List.mem_append_left _ hx

theorem fuoStep_fold_mem (shape : List Cell) (frs : List (Bool × Nat)) :
    ∀ (acc : List (List Cell)) (x : List Cell), x ∈ frs.foldl (fuoStep shape) acc →
      x ∈ acc ∨ ∃ fr ∈ frs, x = orientationOf shape fr.1 fr.2 := by
  induction frs with
  | nil => intro acc x hx; exact Or.inl hx
  | cons fr rest ih =>
    intro acc x hx
    rw [List.foldl_cons] at hx
    rcases ih _ x hx with hx2 | ⟨fr2, hfr2, heq⟩
    · rw [fuoStep] at hx2
      split at hx2
      · exact Or.inl hx2
      · rcases List.mem_append.mp hx2 with h | h
        · exact Or.inl h
        · refine Or.inr ⟨fr, List.mem_cons_self fr rest, ?_⟩
          simpa using h
    · exact Or.inr ⟨fr2, List.mem_cons_of_mem fr hfr2, heq⟩

theorem fuoStep_fold_mem_fr (shape : List Cell) (frs : List (Bool × Nat)) :
    ∀ (acc : List (List Cell)) (fr : Bool × Nat), fr ∈ frs →
      orientationOf shape fr.1 fr.2 ∈ frs.foldl (fuoStep shape) acc := by
  induction frs with
  | nil => intro acc fr hfr; exact absurd hfr (List.not_mem_nil fr)
  | cons fr0 rest ih =>
    intro acc fr hfr
    rw [List.foldl_cons]
    rcases List.mem_cons.mp hfr with rfl | hfr
    · refine fuoStep_fold_mem_mono shape rest _ _ ?_
      rw [fuoStep]
      split
      · assumption
      · exact List.mem_append_right _ (List.mem_cons_self _ _)
    · exact ih _ fr hfr

theorem fuoStep_fold_nodup (shape : List Cell) (frs : List (Bool × Nat)) :
    ∀ acc : List (List Cell), acc.Nodup → (frs.foldl (fuoStep shape) acc).Nodup := by
  induction frs with
  | nil => intro acc h; exact h
  | cons fr rest ih =>
    intro acc h
    rw [List.foldl_cons]
    refine ih _ ?_
    rw [fuoStep]
    split
    · exact h
    · rw [List.nodup_append]
      exact ⟨h, List.nodup_singleton _, by
        intro a ha hb
        rw [List.mem_singleton] at hb
        subst hb
        exact absurd ha (by assumption)⟩

theorem fuoStep_fold_length (shape : List Cell) (frs : List (Bool × Nat)) :
    ∀ acc : List (List Cell),
      (frs.foldl (fuoStep shape) acc).length ≤ acc.length + frs.length := by
  induction frs with
  | nil => intro acc; simp
  | cons fr rest ih =>
    intro acc
    rw [List.foldl_cons]
    refine le_trans (ih _) ?_
    rw [fuoStep]
    split
    · simp only [List.length_cons]
      omega
    · simp only [List.length_append, List.length_cons, List.length_singleton, List.length_nil]
      omega

theorem fuo_mem {shape : List Cell} {o : List Cell} :
    o ∈ find_unique_orientations shape ↔ ∃ fl rot, rot < 4 ∧ o = orientationOf shape fl rot := by
  rw [fuo_eq_fold]
  constructor
  · intro h
    rcases fuoStep_fold_mem shape flipRots [] o h with hc | ⟨fr, hfr, heq⟩
    · exact absurd hc (List.not_mem_nil o)
    · refine ⟨fr.1, fr.2, ?_, heq⟩
      fin_cases hfr <;> decide
  · rintro ⟨fl, rot, hrot, rfl⟩
    have hfr : ((fl, rot) : Bool × Nat) ∈ flipRots := by
      rw [flipRots]
      interval_cases rot <;> cases fl <;> decide
    exact fuoStep_fold_mem_fr shape flipRots [] (fl, rot) hfr

theorem fuo_nodup (shape : List Cell) : (find_unique_orientations shape).Nodup := by
  rw [fuo_eq_fold]
  exact fuoStep_fold_nodup shape flipRots [] List.nodup_nil

theorem fuo_length_le (shape : List Cell) : (find_unique_orientations shape).length ≤ 8 := by
  rw [fuo_eq_fold]
  have h := fuoStep_fold_length shape flipRots []
  simpa using h

theorem fuo_ne_nil (shape : List Cell) : find_unique_orientations shape ≠ [] := by
  have h : orientationOf shape false 0 ∈ find_unique_orientations shape :=
    fuo_mem.mpr ⟨false, 0, by omega, rfl⟩
  exact List.ne_nil_of_mem h

theorem fuo_mem_self {shape : List Cell} (hnorm : normalizeCells shape = shape)
    (hcanon : canonCells shape = shape) : shape ∈ find_unique_orientations shape := by
  refine fuo_mem.mpr ⟨false, 0, by omega, ?_⟩
  rw [orientationOf]
  have hmap : shape.map (transformCell false 0) = shape := by
    rw [show transformCell false 0 = id from funext fun p => rfl]
    exact List.map_id shape
  rw [hmap, hnorm, hcanon]

theorem fuo_mem_ne_nil {shape : List Cell} (h : shape ≠ []) {o : List Cell}
    (ho : o ∈ find_unique_orientations shape) : o ≠ [] := by
  obtain ⟨fl, rot, -, rfl⟩ := fuo_mem.mp ho
  exact orientationOf_ne_nil h fl rot

/-! ### Part H: area counting -/

theorem testBit_one_shiftLeft (k b : Nat) : (1 <<< k).testBit b = decide (b = k) := by
  rw [Nat.one_shiftLeft]
  rcases eq_or_ne b k with rfl | h
  · simp [Nat.testBit_two_pow_self]
  · simp [Nat.testBit_two_pow_of_ne (Ne.symm h), h]

theorem maskOfCells_testBit_aux (w dr dc : Nat) (l : List Cell) :
    ∀ a b : Nat,
      ((l.foldl (fun mask p =>
          mask ||| (1 <<< ((p.1 + (dr : Int)) * (w : Int) + (p.2 + (dc : Int))).toNat)) a).testBit b)
        = (a.testBit b ||
            l.any fun p =>
              decide (b = ((p.1 + (dr : Int)) * (w : Int) + (p.2 + (dc : Int))).toNat)) := by
  induction l with
  | nil => intro a b; simp
  | cons p rest ih =>
    intro a b
    rw [List.foldl_cons, ih, Nat.testBit_or, testBit_one_shiftLeft]
    simp [List.any_cons, Bool.or_assoc]

theorem maskOfCells_testBit {w dr dc : Nat} {orient : List Cell} {b : Nat} :
    (maskOfCells w dr dc orient).testBit b = true ↔
      ∃ p ∈ orient, b = ((p.1 + (dr : Int)) * (w : Int) + (p.2 + (dc : Int))).toNat := by
  rw [maskOfCells, maskOfCells_testBit_aux w dr dc orient 0 b]
  simp [Nat.zero_testBit, List.any_eq_true]

theorem enc_inj {w : Nat} {r1 c1 r2 c2 : Int} (hr1 : 0 ≤ r1) (hr2 : 0 ≤ r2)
    (hc1 : 0 ≤ c1) (hc1w : c1 < (w : Int)) (hc2 : 0 ≤ c2) (hc2w : c2 < (w : Int))
    (h : (r1 * (w : Int) + c1).toNat = (r2 * (w : Int) + c2).toNat) : r1 = r2 ∧ c1 = c2 := by
  have hw : (0 : Int) < (w : Int) := lt_of_le_of_lt hc1 hc1w
  have h1 : (0 : Int) ≤ r1 * (w : Int) + c1 := by
    have := mul_nonneg hr1 (le_of_lt hw); omega
  have h2 : (0 : Int) ≤ r2 * (w : Int) + c2 := by
    have := mul_nonneg hr2 (le_of_lt hw); omega
  have heq : r1 * (w : Int) + c1 = r2 * (w : Int) + c2 := by omega
  have hc : c1 = c2 := by
    have m1 : (c1 + (w : Int) * r1) % (w : Int) = c1 % (w : Int) :=
      Int.add_mul_emod_self_left c1 (w : Int) r1
    have m2 : (c2 + (w : Int) * r2) % (w : Int) = c2 % (w : Int) :=
      Int.add_mul_emod_self_left c2 (w : Int) r2
    have e1 : c1 % (w : Int) = c1 := Int.emod_eq_of_lt hc1 hc1w
    have e2 : c2 % (w : Int) = c2 := Int.emod_eq_of_lt hc2 hc2w
    have hre : c1 + (w : Int) * r1 = c2 + (w : Int) * r2 := by linear_combination heq
    rw [← e1, ← m1, hre, m2, e2]
  refine ⟨?_, hc⟩
  have hrw : r1 * (w : Int) = r2 * (w : Int) := by linarith
  exact mul_right_cancel₀ (ne_of_gt hw) hrw

theorem orientPlacements_mem_strong {w h : Nat} {orient : List Cell} {m : Nat}
    (hm : m ∈ orientPlacements w h orient) :
    ∃ dr dc : Nat, (dr : Int) < (h : Int) - maxFst orient ∧
      (dc : Int) < (w : Int) - maxSnd orient ∧ m = maskOfCells w dr dc orient := by
  rw [orientPlacements] at hm
  by_cases hbb : (h : Int) ≤ maxFst orient ∨ (w : Int) ≤ maxSnd orient
  · rw [if_pos hbb] at hm
    exact absurd hm (List.not_mem_nil m)
  · rw [if_neg hbb] at hm
    obtain ⟨dr, hdr, hdr2⟩ := List.mem_flatMap.mp hm
    obtain ⟨dc, hdc, hdc2⟩ := List.mem_map.mp hdr2
    rw [List.mem_range] at hdr hdc
    push_neg at hbb
    exact ⟨dr, dc, by omega, by omega, hdc2.symm⟩

theorem bitsOf_maskOfCells_card {w h : Nat} {orient : List Cell}
    (hnn : ∀ p ∈ orient, 0 ≤ p.1 ∧ 0 ≤ p.2) (hnd : orient.Nodup)
    {dr dc : Nat} (hdr : (dr : Int) < (h : Int) - maxFst orient)
    (hdc : (dc : Int) < (w : Int) - maxSnd orient) :
    (bitsOf (w * h) (maskOfCells w dr dc orient)).card = orient.length := by
  have hbound : ∀ p ∈ orient,
      ((p.1 + (dr : Int)) * (w : Int) + (p.2 + (dc : Int))).toNat < w * h := by
    intro p hp
    have h1 := (hnn p hp).1
    have h2 := (hnn p hp).2
    have h3 := le_maxFst hp
    have h4 := le_maxSnd hp
    have hcol : p.2 + (dc : Int) < (w : Int) := by omega
    have hcnn : (0 : Int) ≤ p.2 + (dc : Int) := by omega
    have hrnn : (0 : Int) ≤ p.1 + (dr : Int) := by omega
    have hwnn : (0 : Int) ≤ (w : Int) := Int.natCast_nonneg w
    have hstep : (p.1 + (dr : Int) + 1) * (w : Int) ≤ (h : Int) * (w : Int) :=
      mul_le_mul_of_nonneg_right (by omega) hwnn
    have hexp : (p.1 + (dr : Int) + 1) * (w : Int)
        = (p.1 + (dr : Int)) * (w : Int) + (w : Int) := by ring
    have hXnn : (0 : Int) ≤ (p.1 + (dr : Int)) * (w : Int) := mul_nonneg hrnn hwnn
    have hkey : (p.1 + (dr : Int)) * (w : Int) + (p.2 + (dc : Int))
        < ((w * h : Nat) : Int) := by
      have hcast : ((w * h : Nat) : Int) = (h : Int) * (w : Int) := by push_cast; ring
      linarith
    omega
  have hinj : ∀ p ∈ orient, ∀ q ∈ orient,
      ((p.1 + (dr : Int)) * (w : Int) + (p.2 + (dc : Int))).toNat
        = ((q.1 + (dr : Int)) * (w : Int) + (q.2 + (dc : Int))).toNat → p = q := by
    intro p hp q hq hpq
    have h1 := hnn p hp
    have h2 := hnn q hq
    have h3 := le_maxSnd hp
    have h4 := le_maxSnd hq
    obtain ⟨e1, e2⟩ := @enc_inj w (p.1 + (dr : Int)) (p.2 + (dc : Int))
      (q.1 + (dr : Int)) (q.2 + (dc : Int))
      (by omega) (by omega) (by omega) (by omega) (by omega) (by omega) hpq
    exact Prod.ext (by omega) (by omega)
  have hset : bitsOf (w * h) (maskOfCells w dr dc orient)
      = (orient.map fun p =>
          ((p.1 + (dr : Int)) * (w : Int) + (p.2 + (dc : Int))).toNat).toFinset := by
    apply Finset.ext
    intro b
    rw [bitsOf, Finset.mem_filter, Finset.mem_range, List.mem_toFinset, List.mem_map]
    constructor
    · rintro ⟨hb, htb⟩
      obtain ⟨p, hp, rfl⟩ := maskOfCells_testBit.mp htb
      exact ⟨p, hp, rfl⟩
    · rintro ⟨p, hp, rfl⟩
      exact ⟨hbound p hp, maskOfCells_testBit.mpr ⟨p, hp, rfl⟩⟩
  have hmnd : (orient.map fun p =>
      ((p.1 + (dr : Int)) * (w : Int) + (p.2 + (dc : Int))).toNat).Nodup :=
    List.Nodup.map_on hinj hnd
  rw [hset, List.toFinset_card_of_nodup hmnd, List.length_map]

theorem genMasks_card {w h : Nat} {shape : List Cell} (hne : shape ≠ []) (hnd : shape.Nodup) :
    ∀ m ∈ genMasks w h (find_unique_orientations shape),
      (bitsOf (w * h) m).card = shape.length := by
  intro m hm
  rw [genMasks] at hm
  obtain ⟨o, ho, hmo⟩ := List.mem_flatMap.mp hm
  obtain ⟨fl, rot, hrot, rfl⟩ := fuo_mem.mp ho
  obtain ⟨dr, dc, hdr, hdc, rfl⟩ := orientPlacements_mem_strong hmo
  rw [bitsOf_maskOfCells_card (fun p hp => orientationOf_nonneg hp)
    (orientationOf_nodup shape fl rot) hdr hdc]
  exact orientationOf_length hnd fl rot

theorem bitsOf_disjoint {B a b : Nat} (h : a &&& b = 0) :
    Disjoint (bitsOf B a) (bitsOf B b) := by
  rw [Finset.disjoint_left]
  intro x hxa hxb
  rw [bitsOf, Finset.mem_filter] at hxa hxb
  have hand : (a &&& b).testBit x = true := by
    rw [Nat.testBit_and, hxa.2, hxb.2]
    rfl
  rw [h, Nat.zero_testBit] at hand
  exact Bool.false_ne_true hand

theorem mem_foldr_union (B : Nat) (l : List Nat) (x : Nat) :
    x ∈ l.foldr (fun m acc => bitsOf B m ∪ acc) ∅ ↔ ∃ m ∈ l, x ∈ bitsOf B m := by
  induction l with
  | nil => simp
  | cons m rest ih =>
    rw [List.foldr_cons, Finset.mem_union, ih]
    constructor
    · rintro (hx | ⟨m2, hm2, hx⟩)
      · exact ⟨m, List.mem_cons_self m rest, hx⟩
      · exact ⟨m2, List.mem_cons_of_mem m hm2, hx⟩
    · rintro ⟨m2, hm2, hx⟩
      rcases List.mem_cons.mp hm2 with rfl | hm2
      · exact Or.inl hx
      · exact Or.inr ⟨m2, hm2, hx⟩

theorem foldr_union_subset (B : Nat) (l : List Nat) :
    l.foldr (fun m acc => bitsOf B m ∪ acc) ∅ ⊆ Finset.range B := by
  intro x hx
  obtain ⟨m, hm, hxm⟩ := (mem_foldr_union B l x).mp hx
  rw [bitsOf, Finset.mem_filter] at hxm
  exact hxm.1

theorem card_foldr_union (B : Nat) (l : List Nat) : l.Pairwise disjZ →
    (l.foldr (fun m acc => bitsOf B m ∪ acc) ∅).card
      = (l.map fun m => (bitsOf B m).card).sum := by
  induction l with
  | nil => intro _; simp
  | cons m rest ih =>
    intro hpw
    rw [List.pairwise_cons] at hpw
    rw [List.foldr_cons, List.map_cons, List.sum_cons, ← ih hpw.2]
    refine Finset.card_union_of_disjoint ?_
    rw [Finset.disjoint_left]
    intro x hxm hxr
    obtain ⟨m2, hm2, hxm2⟩ := (mem_foldr_union B rest x).mp hxr
    exact (Finset.disjoint_left.mp (bitsOf_disjoint (hpw.1 m2 hm2))) hxm hxm2

theorem sum_bits_card_le (B : Nat) (l : List Nat) (hpw : l.Pairwise disjZ) :
    (l.map fun m => (bitsOf B m).card).sum ≤ B := by
  rw [← card_foldr_union B l hpw]
  calc (l.foldr (fun m acc => bitsOf B m ∪ acc) ∅).card
      ≤ (Finset.range B).card := Finset.card_le_card (foldr_union_subset B l)
    _ = B := Finset.card_range B

theorem map_sum_of_forall₂ (f : Nat → Nat) {chosen : List Nat} {ls : List (List Nat)}
    (h1 : List.Forall₂ (fun m ms => m ∈ ms) chosen ls) :
    ∀ {vals : List Nat}, List.Forall₂ (fun ms v => ∀ m ∈ ms, f m = v) ls vals →
      (chosen.map f).sum = vals.sum := by
  induction h1 with
  | nil =>
    intro vals h2
    cases h2
    simp
  | cons hm htail ih =>
    intro vals h2
    cases h2 with
    | cons hv htail2 =>
      rw [List.map_cons, List.sum_cons, List.sum_cons, ih htail2, hv _ hm]

theorem forall₂_flatMap {α β γ : Type} (R : β → γ → Prop) (f : α → List β) (g : α → List γ) :
    ∀ l : List α, (∀ x ∈ l, List.Forall₂ R (f x) (g x)) →
      List.Forall₂ R (l.flatMap f) (l.flatMap g) := by
  intro l
  induction l with
  | nil => intro _; exact List.Forall₂.nil
  | cons x rest ih =>
    intro hall
    rw [List.flatMap_cons, List.flatMap_cons]
    exact forall₂_append_both (hall x (List.mem_cons_self x rest))
      (ih fun y hy => hall y (List.mem_cons_of_mem x hy))

theorem forall₂_replicate {β γ : Type} (R : β → γ → Prop) {a : β} {b : γ} (h : R a b) :
    ∀ n : Nat, List.Forall₂ R (List.replicate n a) (List.replicate n b) := by
  intro n
  induction n with
  | zero => exact List.Forall₂.nil
  | succ n ih => exact List.Forall₂.cons h ih

theorem sum_flatMap {α : Type} (f : α → List Nat) :
    ∀ l : List α, (l.flatMap f).sum = (l.map fun x => (f x).sum).sum := by
  intro l
  induction l with
  | nil => rfl
  | cons x rest ih =>
    rw [List.flatMap_cons, List.sum_append, List.map_cons, List.sum_cons, ih]

theorem active_sum_aux (counts : List Nat) (f : Nat → Nat) :
    ∀ l : List Nat,
      ((l.filterMap fun s =>
        if 0 < counts.getD s 0 then some (s, counts.getD s 0) else none).map
          fun sc => sc.2 * f sc.1).sum
        = (l.map fun s => counts.getD s 0 * f s).sum := by
  intro l
  induction l with
  | nil => rfl
  | cons s rest ih =>
    by_cases hc : 0 < counts.getD s 0
    · rw [List.filterMap_cons_some (by rw [if_pos hc])]
      rw [List.map_cons, List.sum_cons, List.map_cons, List.sum_cons, ih]
    · rw [List.filterMap_cons_none (by rw [if_neg hc])]
      rw [List.map_cons, List.sum_cons, ih]
      have hz : counts.getD s 0 = 0 := by omega
      rw [hz, Nat.zero_mul, Nat.zero_add]

set_option maxHeartbeats 1000000 in
theorem vals_sum_eq_total (w h : Nat) (counts : List Nat) (shapes : List (List Cell))
    (hlen : counts.length = shapes.length) :
    (((activeOf counts).flatMap fun sc =>
        List.replicate sc.2 ((shapes.getD sc.1 []).length)).sum)
      = totalCellsOf counts shapes := by
  rw [sum_flatMap]
  have hfun : (fun sc : Nat × Nat =>
        (List.replicate sc.2 ((shapes.getD sc.1 []).length)).sum)
      = fun sc : Nat × Nat => sc.2 * (shapes.getD sc.1 []).length :=
    funext fun sc => by simp [List.sum_replicate, smul_eq_mul]
  rw [hfun, activeOf, active_sum_aux counts (fun s => (shapes.getD s []).length),
    totalCellsOf, hlen]

theorem getD_mem_of_lt {shapes : List (List Cell)} {i : Nat} (h : i < shapes.length) :
    shapes.getD i [] ∈ shapes := by
  rw [List.getD_eq_getElem?_getD, List.getElem?_eq_getElem h, Option.getD_some]
  exact List.getElem_mem h

theorem getD_map_fuo {shapes : List (List Cell)} {i : Nat} (h : i < shapes.length) :
    (shapes.map find_unique_orientations).getD i []
      = find_unique_orientations (shapes.getD i []) := by
  rw [List.getD_eq_getElem?_getD, List.getElem?_map, List.getElem?_eq_getElem h]
  rw [List.getD_eq_getElem?_getD, List.getElem?_eq_getElem h]
  rw [Option.map_some', Option.getD_some, Option.getD_some]

theorem no_spec_of_area (w h : Nat) (counts : List Nat) (shapes : List (List Cell))
    (hlen : counts.length = shapes.length)
    (hsh : ∀ sh ∈ shapes, sh ≠ [] ∧ sh.Nodup)
    (harea : w * h < totalCellsOf counts shapes) :
    ¬ SpecFlat 0 ((activeOf counts).flatMap fun sc =>
      List.replicate sc.2
        (genMasks w h ((shapes.map find_unique_orientations).getD sc.1 []))) := by
  rintro ⟨chosen, hforall, hok⟩
  have hvals : List.Forall₂
      (fun ms v => ∀ m ∈ ms, (fun m => (bitsOf (w * h) m).card) m = v)
      ((activeOf counts).flatMap fun sc =>
        List.replicate sc.2
          (genMasks w h ((shapes.map find_unique_orientations).getD sc.1 [])))
      ((activeOf counts).flatMap fun sc =>
        List.replicate sc.2 ((shapes.getD sc.1 []).length)) := by
    refine forall₂_flatMap _ _ _ (activeOf counts) ?_
    intro sc hsc
    have hslt : sc.1 < counts.length := (activeOf_mem_spec hsc).1
    have hslt2 : sc.1 < shapes.length := by omega
    refine forall₂_replicate _ ?_ sc.2
    intro m hm
    rw [getD_map_fuo hslt2] at hm
    obtain ⟨hne, hnd⟩ := hsh (shapes.getD sc.1 []) (getD_mem_of_lt hslt2)
    exact genMasks_card hne hnd m hm
  have hsum := map_sum_of_forall₂ (fun m => (bitsOf (w * h) m).card) hforall hvals
  have htot := vals_sum_eq_total w h counts shapes hlen
  have hle := sum_bits_card_le (w * h) chosen hok.2
  omega

/-! ### Part I: the traced solver projects onto the untraced one -/

theorem orientPlacementsCells_fst (w h : Nat) (orient : List Cell) :
    (orientPlacementsCells w h orient).map Prod.fst = orientPlacements w h orient := by
  rw [orientPlacementsCells, orientPlacements]
  by_cases hbb : (h : Int) ≤ maxFst orient ∨ (w : Int) ≤ maxSnd orient
  · rw [if_pos hbb, if_pos hbb]
    rfl
  · rw [if_neg hbb, if_neg hbb]
    generalize List.range ((h : Int) - maxFst orient).toNat = L
    induction L with
    | nil => rfl
    | cons dr rest ih =>
      rw [List.flatMap_cons, List.flatMap_cons, List.map_append, ih, List.map_map]
      rfl

theorem genMasksCells_fst (w h : Nat) (orients : List (List Cell)) :
    (genMasksCells w h orients).map Prod.fst = genMasks w h orients := by
  rw [genMasksCells, genMasks]
  induction orients with
  | nil => rfl
  | cons o rest ih =>
    rw [List.flatMap_cons, List.flatMap_cons, List.map_append, ih,
      orientPlacementsCells_fst]

theorem buildTypeData_proj (w h : Nat) (ao : List (List (List Cell))) :
    ∀ l : List (Nat × Nat),
      buildTypeMasks w h ao l = (buildTypeData w h ao l).map fun tds => tds.map projTD := by
  intro l
  induction l with
  | nil => rfl
  | cons sc rest ih =>
    obtain ⟨s, cnt⟩ := sc
    have hlen : (genMasksCells w h (ao.getD s [])).length
        = (genMasks w h (ao.getD s [])).length := by
      rw [← genMasksCells_fst w h (ao.getD s []), List.length_map]
    rw [buildTypeMasks, buildTypeData]
    by_cases hlt : (genMasks w h (ao.getD s [])).length < cnt
    · rw [if_pos hlt, if_pos (by omega)]
      rfl
    · rw [if_neg hlt, if_neg (by omega)]
      cases hbd : buildTypeData w h ao rest with
      | none =>
        rw [ih, hbd]
        rfl
      | some tds =>
        rw [ih, hbd]
        have hproj : projTD (s, cnt, genMasksCells w h (ao.getD s []))
            = (s, cnt, genMasks w h (ao.getD s [])) := by
          rw [projTD]
          rw [genMasksCells_fst]
        simp only [Option.map_some', List.map_cons, hproj]

theorem lenLe_projTD (a b : Nat × Nat × List (Nat × List Cell)) :
    lenLeT a b ↔ lenLe (projTD a) (projTD b) := by
  unfold lenLeT lenLe projTD
  simp [List.length_map]

theorem orderedInsert_projTD (a : Nat × Nat × List (Nat × List Cell)) :
    ∀ l : List (Nat × Nat × List (Nat × List Cell)),
      (List.orderedInsert lenLeT a l).map projTD
        = List.orderedInsert lenLe (projTD a) (l.map projTD) := by
  intro l
  induction l with
  | nil => rfl
  | cons b rest ih =>
    rw [List.orderedInsert, List.map_cons, List.orderedInsert]
    by_cases hab : lenLeT a b
    · rw [if_pos hab, if_pos ((lenLe_projTD a b).mp hab), List.map_cons, List.map_cons]
    · rw [if_neg hab, if_neg (fun hc => hab ((lenLe_projTD a b).mpr hc)), List.map_cons, ih]

theorem insertionSort_projTD :
    ∀ l : List (Nat × Nat × List (Nat × List Cell)),
      (insertionSort lenLeT l).map projTD = insertionSort lenLe (l.map projTD) := by
  intro l
  induction l with
  | nil => rfl
  | cons a rest ih =>
    rw [List.insertionSort, List.map_cons, List.insertionSort, ← ih,
      orderedInsert_projTD]

theorem tctxOf_base (tds : List (Nat × Nat × List (Nat × List Cell))) :
    (tctxOf tds).base = ctxOf (tds.map projTD) := rfl

theorem projState_initStateT (n : Nat) : projState (initStateT n) = initState n := rfl

theorem projState_step (tc : TCtx) (σ : TrState) :
    projState (stepLoopT tc σ) = stepLoop tc.base (projState σ) := by
  simp only [stepLoopT, stepLoop, projState]
  cases hfc : findCommit tc.base (tc.base.instMasks.getD σ.pos.toNat []) σ.grid
      σ.pos.toNat (σ.mi.getD σ.pos.toNat 0) with
  | some i => rfl
  | none => rfl

theorem runLoopT_fst (tc : TCtx) :
    ∀ (fuel : Nat) (σ : TrState),
      (runLoopT tc fuel σ).map Prod.fst = runLoop tc.base fuel (projState σ) := by
  intro fuel
  induction fuel with
  | zero =>
    intro σ
    by_cases hc : 0 ≤ σ.pos ∧ σ.pos < (tc.base.n : Int)
    · have hL : runLoopT tc 0 σ = none := by
        rw [runLoopT, if_pos hc]
      have hR : runLoop tc.base 0 (projState σ) = none := by
        have hps : (projState σ).pos = σ.pos := rfl
        rw [runLoop, hps, if_pos hc]
      rw [hL, hR]
      rfl
    · have hL : runLoopT tc 0 σ = some (decide ((tc.base.n : Int) ≤ σ.pos), σ.events) := by
        rw [runLoopT, if_neg hc]
      have hR : runLoop tc.base 0 (projState σ)
          = some (decide ((tc.base.n : Int) ≤ σ.pos)) := by
        have hps : (projState σ).pos = σ.pos := rfl
        rw [runLoop, hps, if_neg hc]
      rw [hL, hR]
      rfl
  | succ fuel ih =>
    intro σ
    by_cases hc : 0 ≤ σ.pos ∧ σ.pos < (tc.base.n : Int)
    · have hL : runLoopT tc (fuel + 1) σ = runLoopT tc fuel (stepLoopT tc σ) := by
        rw [runLoopT, if_pos hc]
      have hR : runLoop tc.base (fuel + 1) (projState σ)
          = runLoop tc.base fuel (stepLoop tc.base (projState σ)) := by
        have hps : (projState σ).pos = σ.pos := rfl
        rw [runLoop, hps, if_pos hc]
      rw [hL, hR, ← projState_step, ih]
    · have hL : runLoopT tc (fuel + 1) σ
          = some (decide ((tc.base.n : Int) ≤ σ.pos), σ.events) := by
        rw [runLoopT, if_neg hc]
      have hR : runLoop tc.base (fuel + 1) (projState σ)
          = some (decide ((tc.base.n : Int) ≤ σ.pos)) := by
        have hps : (projState σ).pos = σ.pos := rfl
        rw [runLoop, hps, if_neg hc]
      rw [hL, hR]
      rfl

theorem option_getD_fst (o : Option (Bool × List TraceEvent)) :
    (o.getD (false, [])).1 = (o.map Prod.fst).getD false := by
  cases o <;> rfl

theorem solve_traced_fst (w h : Nat) (counts : List Nat)
    (ao : List (List (List Cell))) (shapes : List (List Cell)) :
    (solve_region_traced w h counts ao shapes).1 = solve_region w h counts ao shapes := by
  rw [solve_region_traced, solve_region]
  by_cases ha : w * h < totalCellsOf counts shapes
  · rw [if_pos ha, if_pos ha]
  · rw [if_neg ha, if_neg ha]
    by_cases hact : activeOf counts = []
    · rw [if_pos hact, if_pos hact]
    · rw [if_neg hact, if_neg hact]
      cases hbtd : buildTypeData w h ao (activeOf counts) with
      | none =>
        have hbtm : buildTypeMasks w h ao (activeOf counts) = none := by
          rw [buildTypeData_proj w h ao (activeOf counts), hbtd]
          rfl
        rw [hbtm]
      | some tds0 =>
        have hbtm : buildTypeMasks w h ao (activeOf counts) = some (tds0.map projTD) := by
          rw [buildTypeData_proj w h ao (activeOf counts), hbtd]
          rfl
        rw [hbtm]
        have hctx : (tctxOf (insertionSort lenLeT tds0)).base
            = ctxOf (insertionSort lenLe (tds0.map projTD)) := by
          rw [tctxOf_base, insertionSort_projTD]
        rw [option_getD_fst, runLoopT_fst, projState_initStateT, hctx]

/-! ### The claims -/

theorem maskOfCells_bit_lt {w h : Nat} {orient : List Cell}
    (hnn : ∀ p ∈ orient, 0 ≤ p.1 ∧ 0 ≤ p.2)
    {dr dc : Nat} (hdr : (dr : Int) < (h : Int) - maxFst orient)
    (hdc : (dc : Int) < (w : Int) - maxSnd orient)
    {b : Nat} (hb : (maskOfCells w dr dc orient).testBit b = true) : b < w * h := by
  obtain ⟨p, hp, rfl⟩ := maskOfCells_testBit.mp hb
  have h1 := (hnn p hp).1
  have h2 := (hnn p hp).2
  have h3 := le_maxFst hp
  have h4 := le_maxSnd hp
  have hcol : p.2 + (dc : Int) < (w : Int) := by omega
  have hcnn : (0 : Int) ≤ p.2 + (dc : Int) := by omega
  have hrnn : (0 : Int) ≤ p.1 + (dr : Int) := by omega
  have hwnn : (0 : Int) ≤ (w : Int) := Int.natCast_nonneg w
  have hstep : (p.1 + (dr : Int) + 1) * (w : Int) ≤ (h : Int) * (w : Int) :=
    mul_le_mul_of_nonneg_right (by omega) hwnn
  have hexp : (p.1 + (dr : Int) + 1) * (w : Int)
      = (p.1 + (dr : Int)) * (w : Int) + (w : Int) := by ring
  have hXnn : (0 : Int) ≤ (p.1 + (dr : Int)) * (w : Int) := mul_nonneg hrnn hwnn
  have hkey : (p.1 + (dr : Int)) * (w : Int) + (p.2 + (dc : Int))
      < ((w * h : Nat) : Int) := by
    have hcast : ((w * h : Nat) : Int) = (h : Int) * (w : Int) := by push_cast; ring
    linarith
  omega

/-- C1: on the real pipeline inputs (orientation lists generated by
`find_unique_orientations` from non-empty duplicate-free shapes, one
count per shape), the iterative solver with its area precheck, placement
ordering, forward checking and symmetry breaking returns exactly the
result of the naive brute-force search that assigns one generated
placement bitmask to every required instance and tests pairwise
disjointness. -/
theorem claim_C1 (w h : Nat) (counts : List Nat) (shapes : List (List Cell))
    (hlen : counts.length = shapes.length)
    (hsh : ∀ sh ∈ shapes, sh ≠ [] ∧ sh.Nodup) :
    solve_region w h counts (shapes.map find_unique_orientations) shapes
      = bruteForceSolve w h counts (shapes.map find_unique_orientations) := by
  apply solve_eq_brute
  · intro sc hsc m hm
    have hslt : sc.1 < counts.length := (activeOf_mem_spec hsc).1
    have hslt2 : sc.1 < shapes.length := by omega
    rw [getD_map_fuo hslt2] at hm
    obtain ⟨hne, hnd⟩ := hsh _ (getD_mem_of_lt hslt2)
    refine genMasks_nonzero ?_ m hm
    intro o ho
    exact fuo_mem_ne_nil hne ho
  · intro ha
    exact no_spec_of_area w h counts shapes hlen hsh ha

theorem claim_C1_witness :
    solve_region 1 1 [1] ([[((0 : Int), (0 : Int))]].map find_unique_orientations)
        [[(0, 0)]]
      = bruteForceSolve 1 1 [1] ([[((0 : Int), (0 : Int))]].map find_unique_orientations) :=
  claim_C1 1 1 [1] [[(0, 0)]] rfl (by decide)

/-- C2 (corrected): the solver does not check exact coverage; what the
code guarantees in the claimed direction is only the area bound — whenever
`solve_region` returns true, the required cells fit in the region,
`totalCellsOf counts shapes ≤ w * h`. The original exact-tiling claim is
refuted by the counterexample below. -/
theorem claim_C2 (w h : Nat) (counts : List Nat) (ao : List (List (List Cell)))
    (shapes : List (List Cell))
    (hT : solve_region w h counts ao shapes = true) :
    totalCellsOf counts shapes ≤ w * h := by
  by_contra hc
  rw [solve_region, if_pos (by omega)] at hT
  exact Bool.false_ne_true hT

theorem claim_C2_witness : totalCellsOf [0] [[((0 : Int), (0 : Int))]] ≤ 2 * 2 :=
  claim_C2 2 2 [0] [] [[(0, 0)]] (by decide)

theorem claim_C2_counterexample :
    solve_region 2 2 [1]
        ([[((0 : Int), (0 : Int)), (1, 0), (1, 1)]].map find_unique_orientations)
        [[(0, 0), (1, 0), (1, 1)]] = true
      ∧ totalCellsOf [1] [[((0 : Int), (0 : Int)), (1, 0), (1, 1)]] ≠ 2 * 2 := by
  constructor
  · rw [solve_eq_brute 2 2 [1]
      ([[((0 : Int), (0 : Int)), (1, 0), (1, 1)]].map find_unique_orientations)
      [[(0, 0), (1, 0), (1, 1)]] (by decide) (fun hcon => absurd hcon (by decide))]
    decide
  · decide

/-- C3: a region whose required cell total exceeds the area is rejected by
the precheck at the top of `solve_region`, for every orientation table and
shape list. -/
theorem claim_C3 (w h : Nat) (counts : List Nat) (ao : List (List (List Cell)))
    (shapes : List (List Cell)) (hgt : w * h < totalCellsOf counts shapes) :
    solve_region w h counts ao shapes = false := by
  rw [solve_region, if_pos hgt]

theorem claim_C3_witness :
    solve_region 1 1 [2] [] [[((0 : Int), (0 : Int))]] = false :=
  claim_C3 1 1 [2] [] [[(0, 0)]] (by decide)

/-- C4: if some required shape type has fewer generated placements than
its required count, `solve_region` returns false without running the
search loop (either through the area precheck or through the early return
in the `type_masks` construction). -/
theorem claim_C4 (w h : Nat) (counts : List Nat) (ao : List (List (List Cell)))
    (shapes : List (List Cell)) (s : Nat)
    (hs : s < counts.length) (hpos : 0 < counts.getD s 0)
    (hfew : (genMasks w h (ao.getD s [])).length < counts.getD s 0) :
    solve_region w h counts ao shapes = false := by
  rw [solve_region]
  by_cases ha : w * h < totalCellsOf counts shapes
  · rw [if_pos ha]
  · rw [if_neg ha]
    have hact : activeOf counts ≠ [] := by
      intro hnil
      have hmem := mem_activeOf hs hpos
      rw [hnil] at hmem
      exact absurd hmem (List.not_mem_nil _)
    rw [if_neg hact]
    have hbtm : buildTypeMasks w h ao (activeOf counts) = none :=
      buildTypeMasks_none_of w h ao (activeOf counts) (s, counts.getD s 0)
        (mem_activeOf hs hpos) hfew
    rw [hbtm]

theorem claim_C4_witness :
    solve_region 2 2 [1]
      ([[((0 : Int), (0 : Int)), (0, 1), (0, 2)]].map find_unique_orientations)
      [[(0, 0), (0, 1), (0, 2)]] = false :=
  claim_C4 2 2 [1] ([[((0 : Int), (0 : Int)), (0, 1), (0, 2)]].map find_unique_orientations)
    [[(0, 0), (0, 1), (0, 2)]] 0 (by decide) (by decide) (by decide)

/-- C5: placement generation is exactly characterized for an orientation
with non-negative cells: the generated bitmasks are exactly those of the
offsets keeping the bounding box inside the region; every such bitmask's
set bits are exactly the encoded shifted cells, all below `w * h`; and an
oversized orientation contributes an empty placement list. -/
theorem claim_C5 (w h : Nat) (orient : List Cell)
    (hnn : ∀ p ∈ orient, 0 ≤ p.1 ∧ 0 ≤ p.2) :
    (∀ m : Nat, m ∈ orientPlacements w h orient ↔
        ∃ dr dc : Nat, (dr : Int) + maxFst orient < (h : Int)
          ∧ (dc : Int) + maxSnd orient < (w : Int) ∧ m = maskOfCells w dr dc orient)
    ∧ (∀ dr dc : Nat, (dr : Int) + maxFst orient < (h : Int) →
        (dc : Int) + maxSnd orient < (w : Int) → ∀ b : Nat,
          ((maskOfCells w dr dc orient).testBit b = true ↔
            ∃ p ∈ orient, b = ((p.1 + (dr : Int)) * (w : Int) + (p.2 + (dc : Int))).toNat)
          ∧ ((maskOfCells w dr dc orient).testBit b = true → b < w * h))
    ∧ (((h : Int) ≤ maxFst orient ∨ (w : Int) ≤ maxSnd orient) →
        orientPlacements w h orient = []) := by
  refine ⟨?_, ?_, ?_⟩
  · intro m
    constructor
    · intro hm
      obtain ⟨dr, dc, hdr, hdc, rfl⟩ := orientPlacements_mem_strong hm
      exact ⟨dr, dc, by omega, by omega, rfl⟩
    · rintro ⟨dr, dc, hdr, hdc, rfl⟩
      rw [orientPlacements, if_neg (by push_neg; constructor <;> omega)]
      refine List.mem_flatMap.mpr ⟨dr, List.mem_range.mpr (by omega), ?_⟩
      exact List.mem_map.mpr ⟨dc, List.mem_range.mpr (by omega), rfl⟩
  · intro dr dc hdr hdc b
    refine ⟨maskOfCells_testBit, ?_⟩
    intro hb
    exact maskOfCells_bit_lt hnn (by omega) (by omega) hb
  · intro hbb
    rw [orientPlacements, if_pos hbb]

theorem claim_C5_witness :
    (∀ m : Nat, m ∈ orientPlacements 2 2 [((0 : Int), (0 : Int))] ↔
        ∃ dr dc : Nat, (dr : Int) + maxFst [((0 : Int), (0 : Int))] < (2 : Int)
          ∧ (dc : Int) + maxSnd [((0 : Int), (0 : Int))] < (2 : Int)
          ∧ m = maskOfCells 2 dr dc [((0 : Int), (0 : Int))])
    ∧ (∀ dr dc : Nat, (dr : Int) + maxFst [((0 : Int), (0 : Int))] < (2 : Int) →
        (dc : Int) + maxSnd [((0 : Int), (0 : Int))] < (2 : Int) → ∀ b : Nat,
          ((maskOfCells 2 dr dc [((0 : Int), (0 : Int))]).testBit b = true ↔
            ∃ p ∈ [((0 : Int), (0 : Int))],
              b = ((p.1 + (dr : Int)) * (2 : Int) + (p.2 + (dc : Int))).toNat)
          ∧ ((maskOfCells 2 dr dc [((0 : Int), (0 : Int))]).testBit b = true → b < 2 * 2))
    ∧ (((2 : Int) ≤ maxFst [((0 : Int), (0 : Int))]
          ∨ (2 : Int) ≤ maxSnd [((0 : Int), (0 : Int))]) →
        orientPlacements 2 2 [((0 : Int), (0 : Int))] = []) :=
  claim_C5 2 2 [(0, 0)] (by decide)

/-- C6: for a non-empty shape, `find_unique_orientations` returns between
1 and 8 pairwise-distinct orientations, each a canonical normalized cell
list touching row 0 and column 0 with non-negative coordinates, and the
canonical normalized cell list of the input shape itself is among them. -/
theorem claim_C6 (shape : List Cell) (hne : shape ≠ []) :
    1 ≤ (find_unique_orientations shape).length
    ∧ (find_unique_orientations shape).length ≤ 8
    ∧ (find_unique_orientations shape).Nodup
    ∧ (∀ o ∈ find_unique_orientations shape,
        canonCells o = o ∧ (∃ p ∈ o, p.1 = 0) ∧ (∃ p ∈ o, p.2 = 0)
          ∧ ∀ p ∈ o, 0 ≤ p.1 ∧ 0 ≤ p.2)
    ∧ canonCells (normalizeCells shape) ∈ find_unique_orientations shape := by
  refine ⟨List.length_pos.mpr (fuo_ne_nil shape), fuo_length_le shape, fuo_nodup shape,
    ?_, ?_⟩
  · intro o ho
    obtain ⟨fl, rot, hrot, rfl⟩ := fuo_mem.mp ho
    exact ⟨orientationOf_canon shape fl rot, orientationOf_row_zero hne fl rot,
      orientationOf_col_zero hne fl rot, fun p hp => orientationOf_nonneg hp⟩
  · have hmap : shape.map (transformCell false 0) = shape := by
      rw [show transformCell false 0 = id from funext fun p => rfl]
      exact List.map_id shape
    have ho : orientationOf shape false 0 ∈ find_unique_orientations shape :=
      fuo_mem.mpr ⟨false, 0, by omega, rfl⟩
    rw [orientationOf, hmap] at ho
    exact ho

theorem claim_C6_witness :
    1 ≤ (find_unique_orientations [((0 : Int), (0 : Int))]).length
    ∧ (find_unique_orientations [((0 : Int), (0 : Int))]).length ≤ 8
    ∧ (find_unique_orientations [((0 : Int), (0 : Int))]).Nodup
    ∧ (∀ o ∈ find_unique_orientations [((0 : Int), (0 : Int))],
        canonCells o = o ∧ (∃ p ∈ o, p.1 = 0) ∧ (∃ p ∈ o, p.2 = 0)
          ∧ ∀ p ∈ o, 0 ≤ p.1 ∧ 0 ≤ p.2)
    ∧ canonCells (normalizeCells [((0 : Int), (0 : Int))])
        ∈ find_unique_orientations [((0 : Int), (0 : Int))] :=
  claim_C6 [(0, 0)] (by decide)

/-- C7: when the loop body commits placement index `i` at the current
position and the next instance shares the same placement list (same shape
type, expressed through the group index), the next position's resume
index is set to `i + 1` rather than 0, and the search advances to that
next position. -/
theorem claim_C7 (ctx : Ctx) (σ : SRState) (i : Nat)
    (hfc : findCommit ctx (ctx.instMasks.getD σ.pos.toNat []) σ.grid σ.pos.toNat
      (σ.mi.getD σ.pos.toNat 0) = some i)
    (hsame : sameNextAt ctx σ.pos.toNat = true)
    (hlen : σ.pos.toNat + 1 < σ.mi.length) :
    (stepLoop ctx σ).mi.getD (σ.pos.toNat + 1) 0 = i + 1
      ∧ (stepLoop ctx σ).pos = σ.pos + 1 := by
  have hstep : stepLoop ctx σ = ⟨(σ.mi.set σ.pos.toNat (i + 1)).set (σ.pos.toNat + 1)
      (if sameNextAt ctx σ.pos.toNat then i + 1 else 0),
      σ.grids.set σ.pos.toNat σ.grid,
      σ.grid ||| (ctx.instMasks.getD σ.pos.toNat []).getD i 0, σ.pos + 1⟩ := by
    simp only [stepLoop]
    rw [hfc]
  rw [hstep]
  refine ⟨?_, rfl⟩
  show ((σ.mi.set σ.pos.toNat (i + 1)).set (σ.pos.toNat + 1)
      (if sameNextAt ctx σ.pos.toNat then i + 1 else 0)).getD (σ.pos.toNat + 1) 0 = i + 1
  rw [if_pos hsame]
  exact getD_set_self (i + 1) (by rw [List.length_set]; omega)

theorem claim_C7_witness :
    (stepLoop (ctxOf [(0, 2, [1, 2])]) (initState 2)).mi.getD
        ((initState 2).pos.toNat + 1) 0 = 0 + 1
      ∧ (stepLoop (ctxOf [(0, 2, [1, 2])]) (initState 2)).pos = (initState 2).pos + 1 := by
  have hfc : findCommit (ctxOf [(0, 2, [1, 2])])
      ((ctxOf [(0, 2, [1, 2])]).instMasks.getD (initState 2).pos.toNat [])
      (initState 2).grid (initState 2).pos.toNat
      ((initState 2).mi.getD (initState 2).pos.toNat 0) = some 0 := by
    rw [findCommit]
    rfl
  exact claim_C7 (ctxOf [(0, 2, [1, 2])]) (initState 2) 0 hfc (by decide) (by decide)

/-- C8: the backtracking loop terminates on every context when started in
the initial state: with fuel one above the termination measure it reaches
a final state (position at the instance count or below zero) and returns
a boolean, never running out of fuel. -/
theorem claim_C8 (ctx : Ctx) :
    ∃ r : Bool, runLoop ctx (measureOf ctx (initState ctx.n) + 1) (initState ctx.n)
      = some r :=
  ⟨loopSem ctx (initState ctx.n),
    runLoop_sem ctx _ (initState ctx.n) (by simp [initState]) (by simp [initState])
      (by show (0 : Int) ≤ (ctx.n : Int); omega) (by omega)⟩

/-- C9: the traced solver returns the same boolean as the untraced solver
on every input; the event recording and its cap are a side channel that
does not alter the search. -/
theorem claim_C9 (w h : Nat) (counts : List Nat) (ao : List (List (List Cell)))
    (shapes : List (List Cell)) :
    (solve_region_traced w h counts ao shapes).1 = solve_region w h counts ao shapes :=
  solve_traced_fst w h counts ao shapes

/-- C10: when every count is zero, the active list is empty and
`solve_region` returns true immediately, for any region dimensions
including zero. -/
theorem claim_C10 (w h : Nat) (counts : List Nat) (ao : List (List (List Cell)))
    (shapes : List (List Cell)) (hz : ∀ c ∈ counts, c = 0) :
    solve_region w h counts ao shapes = true := by
  have hget : ∀ s : Nat, counts.getD s 0 = 0 := by
    intro s
    by_cases hs : s < counts.length
    · have hmem : counts.getD s 0 ∈ counts := by
        rw [List.getD_eq_getElem?_getD, List.getElem?_eq_getElem hs, Option.getD_some]
        exact List.getElem_mem hs
      exact hz _ hmem
    · rw [List.getD_eq_getElem?_getD, List.getElem?_eq_none (by omega)]
      rfl
  have htot : totalCellsOf counts shapes = 0 := by
    rw [totalCellsOf]
    apply List.sum_eq_zero
    intro x hx
    obtain ⟨s, hs, rfl⟩ := List.mem_map.mp hx
    rw [hget s, Nat.zero_mul]
  have hact : activeOf counts = [] := by
    rw [activeOf]
    apply List.filterMap_eq_nil_iff.mpr
    intro s hs
    rw [if_neg (by rw [hget s]; omega)]
  rw [solve_region, if_neg (by omega), if_pos hact]

theorem claim_C10_witness :
    solve_region 0 0 [0, 0] [] [] = true :=
  claim_C10 0 0 [0, 0] [] [] (by decide)

end Day12
